import Mathlib

/-!
Verification of the Ukkonen suffix-tree construction in `src/ukkonen.py`.

The Python program is embedded shallowly:

* Python objects of class `Node` live on an explicit heap, `UkkState.nodes`,
  a list indexed by node ids (`Nat`).  Object references in the source become
  node ids here; attribute mutation becomes `setNode`.
* The single shared `End` object is the integer field `UkkState.end_pointer`.
  A node whose `end` attribute holds the `End` object carries the tag
  `NodeEnd.globalEnd`; a node whose `end` is a plain integer carries
  `NodeEnd.fixedEnd e`.  (`src/ukkonen.py` discriminates the two cases with
  `try/except` in `Node.get_end`; the tag plays the role of that dynamic test.)
* Python list indexing (`text[k]`, `child_nodes[k]`) follows Python semantics:
  a negative index wraps once, an index out of range raises, modelled in the
  `Except Err` monad.
* The three loops of the source (`while i <= n`, `while j < i`, and the
  `while True` of `skip_count`) are written with explicit fuel; exhausting
  fuel yields the distinguished error `Err.fuelOut`, so "the loops terminate"
  is "`Err.fuelOut` is never returned".
* Fields of the source that are written but never read (`previous_node`,
  `incoming`, `connected_to`) are omitted: no observable behaviour of the
  program depends on them.
-/

namespace UkkonenPy

/-- Runtime errors of the embedded program: `indexError` is Python's
IndexError on a list access, `heapError` marks dereferencing a missing node
or a `None` where the source would raise, and `fuelOut` is returned only
when a loop fails to terminate within its fuel. -/
inductive Err where
  | indexError
  | heapError
  | fuelOut
deriving DecidableEq, Repr

/-- Computation monad of the embedding. -/
abbrev M (α : Type) := Except Err α

/-- Python list read `l[i]`: a negative index wraps once by adding the
length; any index still out of range raises IndexError. -/
def pyGet {α : Type} (l : List α) (i : Int) : M α :=
  let k : Int := if i < 0 then i + l.length else i
  if k < 0 then .error .indexError
  else
    match l.get? k.toNat with
    | some a => .ok a
    | none => .error .indexError

/-- Python list write `l[i] = a`, with the same index semantics as `pyGet`. -/
def pySet {α : Type} (l : List α) (i : Int) (a : α) : M (List α) :=
  let k : Int := if i < 0 then i + l.length else i
  if k < 0 then .error .indexError
  else if k.toNat < l.length then .ok (l.set k.toNat a)
  else .error .indexError

/-- The `end` attribute of a `Node`: either the shared `End` object
(`globalEnd`) or a frozen integer (`fixedEnd`). -/
inductive NodeEnd where
  | globalEnd
  | fixedEnd (e : Int)
deriving DecidableEq, Repr

/-- One Python `Node` object (class `Node` of `src/ukkonen.py`).
`child_nodes` always has 91 slots, holding node ids.  `suffix_link` is a
node id (`none` is Python's `None`).  `j` is the saved j pointer of a leaf. -/
structure Node where
  start : Int
  end_ : NodeEnd
  suffix_link : Option Nat
  j : Option Int
  leaf_node : Bool
  child_nodes : List (Option Nat)
deriving DecidableEq, Repr

/-- `Node.__init__`: fresh node with 91 empty child slots. -/
def Node.mkNode (start : Int) (end_ : NodeEnd) (suffix_link : Option Nat)
    (leaf_node : Bool) : Node :=
  { start := start, end_ := end_, suffix_link := suffix_link, j := none,
    leaf_node := leaf_node, child_nodes := List.replicate 91 none }

/-- `Node.get_end`: the shared end pointer for a `globalEnd` node, the
frozen integer otherwise. -/
def Node.get_end (nd : Node) (ep : Int) : Int :=
  match nd.end_ with
  | .globalEnd => ep
  | .fixedEnd e => e

/-- `Node.get_length`: `get_end() - start`. -/
def Node.get_length (nd : Node) (ep : Int) : Int :=
  nd.get_end ep - nd.start

/-- `Node.is_leaf`. -/
def Node.is_leaf (nd : Node) : Bool :=
  nd.leaf_node

/-- The mutable state of one `Ukkonen` instance: the node heap, the shared
`End` cell, and the active point.  The root is node id 0. -/
structure UkkState where
  nodes : List Node
  end_pointer : Int
  active_node : Nat
  active_length : Int
deriving DecidableEq, Repr

/-- Dereference a node id. -/
def getNode (s : UkkState) (idx : Nat) : M Node :=
  match s.nodes.get? idx with
  | some nd => .ok nd
  | none => .error .heapError

/-- Overwrite the node stored at an id (attribute mutation in the source). -/
def setNode (s : UkkState) (idx : Nat) (nd : Node) : M UkkState :=
  if idx < s.nodes.length then .ok { s with nodes := s.nodes.set idx nd }
  else .error .heapError

/-- Allocate a fresh node, returning its id. -/
def allocNode (s : UkkState) (nd : Node) : UkkState × Nat :=
  ({ s with nodes := s.nodes ++ [nd] }, s.nodes.length)

/-- `Ukkonen.__init__` before `run_algorithm`: a root node whose `end` is the
shared `End` object, suffix link pointing to itself, active node = root,
active length 0.  `ep0` is the value the shared `End` cell holds when the
constructor runs (`-1` for a fresh `End()`). -/
def ukkonen_init (ep0 : Int) : UkkState :=
  { nodes := [{ start := 0, end_ := .globalEnd, suffix_link := some 0,
                j := none, leaf_node := false,
                child_nodes := List.replicate 91 none }],
    end_pointer := ep0, active_node := 0, active_length := 0 }

/-- `Ukkonen.skip_count`.  `fuel` bounds the `while True` loop; the source's
side effects on `self.active_node` / `self.active_length` are the state
updates, and the returned node id is the function's return value (which the
caller discards, exactly as the source does). -/
def skip_count (text : List Char) (current_pointer : Int) :
    Nat → Nat → Int → UkkState → M (UkkState × Nat)
  | 0, _, _, _ => .error .fuelOut
  | fuel + 1, a_node, a_length, s => do
    let nd ← getNode s a_node
    if a_length = 0 || nd.is_leaf then
      return (s, a_node)
    else
      let s := { s with active_node := a_node, active_length := a_length }
      let c ← pyGet text (current_pointer - a_length)
      let lastj_index : Int := (c.toNat : Int) - 36
      let edge ← pyGet nd.child_nodes lastj_index
      match edge with
      | none => return (s, a_node)
      | some edgeId => do
        let e ← getNode s edgeId
        if e.get_length s.end_pointer > a_length then
          return (s, a_node)
        else
          skip_count text current_pointer fuel edgeId
            (a_length - e.get_length s.end_pointer) s

/-- Shared tail of extension rules 2a and 2b:
`j += 1; self.active_node = self.active_node.suffix_link`.  The `Bool`
result `true` means the inner loop continues. -/
def advance (s : UkkState) (j : Int) : M (UkkState × Int × Bool) := do
  let an ← getNode s s.active_node
  match an.suffix_link with
  | some l => return ({ s with active_node := l }, j + 1, true)
  | none => .error .heapError

/-- One iteration of the inner `while j < i` loop body of
`Ukkonen.run_algorithm` (the part after the loop guard): root recompute of
the active length, skip/count relocation, then extension rule 2a, 2b or 3.
Returns the new state, the new `j`, and whether the loop continues
(`false` = the rule-3 `break`). -/
def extension_body (text : List Char) (i j : Int) (s : UkkState) :
    M (UkkState × Int × Bool) := do
  let s := if s.active_node = 0 then { s with active_length := i - j } else s
  let sr ← skip_count text i (s.nodes.length + 1) s.active_node
      s.active_length s
  let s := sr.1
  let ch ← pyGet text (i - s.active_length)
  let char_rem : Int := (ch.toNat : Int) - 36
  let an ← getNode s s.active_node
  let active_edge ← pyGet an.child_nodes char_rem
  match active_edge with
  | none => do
    let leaf : Node :=
      { Node.mkNode (i - s.active_length) .globalEnd (some 0) true with
        j := some j }
    let al := allocNode s leaf
    let s := al.1
    let leafId := al.2
    let an ← getNode s s.active_node
    let children ← pySet an.child_nodes char_rem (some leafId)
    let s ← setNode s s.active_node { an with child_nodes := children }
    advance s j
  | some edgeId => do
    let ae ← getNode s edgeId
    let c1 ← pyGet text (i - 1)
    let c2 ← pyGet text (ae.start + s.active_length - 1)
    if c1 ≠ c2 then do
      let exNode : Node :=
        Node.mkNode ae.start (.fixedEnd (ae.start + s.active_length - 1))
          (some 0) false
      let al := allocNode s exNode
      let s := al.1
      let exId := al.2
      let an ← getNode s s.active_node
      let children ← pySet an.child_nodes char_rem (some exId)
      let s ← setNode s s.active_node { an with child_nodes := children }
      let cc ← pyGet text (ae.start - 1 + s.active_length)
      let continue_index : Int := (cc.toNat : Int) - 36
      let s ← setNode s edgeId
        { ae with start := ae.start + s.active_length - 1 }
      let ex ← getNode s exId
      let exChildren ← pySet ex.child_nodes continue_index (some edgeId)
      let s ← setNode s exId { ex with child_nodes := exChildren }
      let nc ← pyGet text (i - 1)
      let new_node_index : Int := (nc.toNat : Int) - 36
      let leaf : Node :=
        { Node.mkNode (i - 1) .globalEnd (some 0) true with j := some j }
      let al2 := allocNode s leaf
      let s := al2.1
      let leafId := al2.2
      let ex2 ← getNode s exId
      let exChildren2 ← pySet ex2.child_nodes new_node_index (some leafId)
      let s ← setNode s exId { ex2 with child_nodes := exChildren2 }
      advance s j
    else
      return (s, j, false)

/-- The inner `while j < i` loop.  Each successful extension increments `j`;
rule 3 exits with `j` frozen. -/
def inner_loop (text : List Char) (i : Int) :
    Nat → Int → UkkState → M (UkkState × Int)
  | 0, _, _ => .error .fuelOut
  | fuel + 1, j, s =>
    if j < i then do
      let r ← extension_body text i j s
      if r.2.2 then inner_loop text i fuel r.2.1 r.1
      else return (r.1, r.2.1)
    else
      return (s, j)

/-- The outer `while i <= n` phase loop: advance the shared end pointer,
run the inner loop, then `i += 1` and `active_length += 1`. -/
def phase_loop (text : List Char) (n : Int) :
    Nat → Int → Int → UkkState → M (UkkState × Int)
  | 0, _, _, _ => .error .fuelOut
  | fuel + 1, i, j, s =>
    if i ≤ n then do
      let s := { s with end_pointer := s.end_pointer + 1 }
      let r ← inner_loop text i ((i - j).toNat + 1) j s
      phase_loop text n fuel (i + 1) r.2
        { r.1 with active_length := r.1.active_length + 1 }
    else
      return (s, j)

/-- `Ukkonen.run_algorithm`: append `'$'`, then run all phases. -/
def run_algorithm (text0 : List Char) (s : UkkState) : M (UkkState × Int) :=
  let text := text0 ++ ['$']
  let n : Int := text.length
  phase_loop text n (text.length + 2) 0 0 s

/-- `Ukkonen.__init__` followed by construction: the state of the instance
after the constructor returns.  `ep0` is the end-pointer value the shared
`End` cell starts from. -/
def ukkonenTree (text0 : List Char) (ep0 : Int) : M UkkState := do
  let r ← run_algorithm text0 (ukkonen_init ep0)
  return r.1

/-- `Ukkonen.get_suffix_tree_aux`: depth-first traversal.  The state is
threaded through (and, as proved below, returned unchanged): the source
only reads `self` and the nodes.  At a leaf, append `j + 1`; at an internal
node, the `for child in node.child_nodes` loop recurses into each
non-`None` child slot in slot order (here a `foldlM`).  `fuel` bounds the
recursion depth. -/
def get_suffix_tree_aux : Nat → UkkState → Nat → List Int →
    M (UkkState × List Int)
  | 0, _, _, _ => .error .fuelOut
  | fuel + 1, s, nodeId, acc => do
    let nd ← getNode s nodeId
    if nd.is_leaf then
      match nd.j with
      | some jv => return (s, acc ++ [jv + 1])
      | none => .error .heapError
    else
      nd.child_nodes.foldlM
        (fun (p : UkkState × List Int) c =>
          match c with
          | none => pure p
          | some cid => get_suffix_tree_aux fuel p.1 cid p.2)
        (s, acc)

/-- `Ukkonen.get_suffix_tree`: traverse from the root with a fresh empty
list.  The traversal fuel `nodes.length + 1` dominates the tree depth. -/
def get_suffix_tree (s : UkkState) : M (UkkState × List Int) :=
  get_suffix_tree_aux (s.nodes.length + 1) s 0 []

/-- Whole pipeline: `Ukkonen(text, end).get_suffix_tree()`. -/
def ukkonenOutput (text0 : List Char) (ep0 : Int) : M (List Int) := do
  let s ← ukkonenTree text0 ep0
  let r ← get_suffix_tree s
  return r.2

/-- Input validity per the spec's fixed alphabet: every character in the
restricted ASCII range `[37, 126]` (that range excludes the reserved
terminator `'$'`, code 36). -/
def validInput (text0 : List Char) : Prop :=
  ∀ c ∈ text0, 37 ≤ c.toNat ∧ c.toNat ≤ 126

instance (text0 : List Char) : Decidable (validInput text0) := by
  unfold validInput; infer_instance

/-! ### Reference model: naive sorted-suffix order -/

/-- Strict lexicographic order on character lists, by code point. -/
def lexLt : List Char → List Char → Bool
  | [], [] => false
  | [], _ :: _ => true
  | _ :: _, [] => false
  | a :: as, b :: bs =>
    if a.toNat < b.toNat then true
    else if b.toNat < a.toNat then false
    else lexLt as bs

/-- Insert into a list sorted by `lt`. -/
def insertLt {α : Type} (lt : α → α → Bool) (a : α) : List α → List α
  | [] => [a]
  | b :: bs => if lt a b then a :: b :: bs else b :: insertLt lt a bs

/-- Insertion sort by `lt`. -/
def sortLt {α : Type} (lt : α → α → Bool) : List α → List α
  | [] => []
  | a :: as => insertLt lt a (sortLt lt as)

/-- Naive specification of the output: 1-indexed start offsets of all
suffixes of `text0 ++ "$"`, sorted lexicographically. -/
def naiveSuffixOrder (text0 : List Char) : List Int :=
  let t := text0 ++ ['$']
  (sortLt (fun p q => lexLt (t.drop p) (t.drop q))
      (List.range t.length)).map (fun k => (k : Int) + 1)

/-! ### Witness states for concrete instantiations -/

/-- The constructed state for input `"a"` (used to instantiate theorems at
a concrete tree; falls back to the fresh state if construction failed,
which it does not). -/
def treeOfA : UkkState :=
  match ukkonenTree ['a'] (-1) with
  | .ok s => s
  | .error _ => ukkonen_init (-1)

/-- A concrete mid-construction state of input `"aa"`: the state at the
start of phase `i = 2`, after the end pointer has been advanced — the root
has one child, the open leaf for suffix 0. -/
def aaPhase2State : UkkState :=
  { nodes :=
      [{ start := 0, end_ := .globalEnd, suffix_link := some 0, j := none,
         leaf_node := false,
         child_nodes := (List.replicate 91 (none : Option Nat)).set 61 (some 1) },
       { start := 0, end_ := .globalEnd, suffix_link := some 0, j := some 0,
         leaf_node := true, child_nodes := List.replicate 91 none }],
    end_pointer := 2, active_node := 0, active_length := 2 }

/-- Structural invariant of every reachable heap: every node's suffix link
points at the root (node id 0) — the root's own link therefore points at
itself — and every leaf's `end` aliases the shared `End` cell. -/
def stateOk (s : UkkState) : Prop :=
  ∀ nd ∈ s.nodes, nd.suffix_link = some 0 ∧
    (nd.leaf_node = true → nd.end_ = .globalEnd)

instance (s : UkkState) : Decidable (stateOk s) := by
  unfold stateOk; infer_instance

/-- Bump the shared end pointer by `Δ`, leaving everything else unchanged:
the relation between a run whose shared `End` cell started at `-1` and a
run whose cell started at `-1 + Δ` (a reused default `End`). -/
def bumpSt (Δ : Int) (s : UkkState) : UkkState :=
  { s with end_pointer := s.end_pointer + Δ }

/-- Deep structural invariant of every reachable state:
the heap is nonempty (the root, id 0, exists); no node's child slot holds
the root, and all child ids are in the heap; every non-root node whose
`end` aliases the shared cell is a leaf (the only non-leaf `globalEnd`
node is the root); the child graph admits a rank function that strictly
decreases from parent to child (so it is acyclic); and the active node is
in the heap. -/
def heapInv (s : UkkState) : Prop :=
  1 ≤ s.nodes.length ∧
  (∀ nd ∈ s.nodes, ∀ c : Nat, some c ∈ nd.child_nodes →
    c ≠ 0 ∧ c < s.nodes.length) ∧
  (∀ k : Nat, ∀ nd : Node, s.nodes.get? k = some nd → k ≠ 0 →
    nd.end_ = .globalEnd → nd.leaf_node = true) ∧
  (∃ rank : Nat → Nat, ∀ k : Nat, ∀ nd : Node, s.nodes.get? k = some nd →
    ∀ c : Nat, some c ∈ nd.child_nodes → rank c < rank k) ∧
  s.active_node < s.nodes.length

/-- All words over an alphabet, up to a length bound (for exhaustive
bounded validation of the construction against the naive model). -/
def allWords (alpha : List Char) : Nat → List (List Char)
  | 0 => [[]]
  | n + 1 =>
    allWords alpha n ++
      ((allWords alpha n).filter (fun w => w.length = n)).flatMap
        (fun w => alpha.map (fun c => w ++ [c]))

end UkkonenPy

deriving instance DecidableEq for Except

namespace UkkonenPy

/-! ### Helper lemmas on the `Except` monad -/

/-- Inversion for a successful bind. -/
theorem mbind_eq_ok {α β : Type} {x : M α} {f : α → M β} {b : β}
    (h : x >>= f = .ok b) : ∃ a, x = .ok a ∧ f a = .ok b := by
  cases x with
  | ok a => exact ⟨a, rfl, h⟩
  | error e => exact Except.noConfusion h

/-- Bind of a success reduces. -/
theorem mbind_ok {α β : Type} (a : α) (f : α → M β) :
    (Except.ok a : M α) >>= f = f a := rfl

/-- Bind of a failure reduces. -/
theorem mbind_error {α β : Type} (e : Err) (f : α → M β) :
    (Except.error e : M α) >>= f = .error e := rfl

/-! ### C5: the empty input -/

/-- C5: the empty input string is valid (construction succeeds, no error):
`Ukkonen("")` produces a tree with exactly one leaf (the terminator suffix)
and `get_suffix_tree()` returns `[1]`. -/
theorem C5_empty_input :
    ukkonenOutput [] (-1) = .ok [1] ∧
    (ukkonenTree [] (-1)).map
      (fun s => (s.nodes.filter (fun nd => nd.leaf_node)).length) = .ok 1 := by
  decide

/-! ### C3: there is no input validation -/

/-- C3 (code divergence): the source performs no validation at all.  An
input consisting of the reserved terminator `'$'` is silently accepted:
construction proceeds and the traversal returns `[1]` (which is not even
the suffix order `[2, 1]` of `"$$"`).  An input character with code point
127 (just outside the fixed alphabet) makes construction fail with an
IndexError from the out-of-bounds child-array access `child_nodes[91]`
during construction — not with a validation error before construction. -/
theorem C3_no_validation :
    ukkonenOutput ['$'] (-1) = .ok [1] ∧
    naiveSuffixOrder ['$'] = [2, 1] ∧
    ukkonenTree [Char.ofNat 127] (-1) = .error .indexError := by
  decide

/-! ### C7: the traversal is read-only and restartable -/

/-- A successful `foldlM` whose step function preserves the first component
of the pair preserves it overall. -/
theorem foldlM_fst_eq
    (g : (UkkState × List Int) → Option Nat → M (UkkState × List Int))
    (hg : ∀ p c q, g p c = .ok q → q.1 = p.1) :
    ∀ (l : List (Option Nat)) (p q : UkkState × List Int),
      List.foldlM g p l = .ok q → q.1 = p.1 := by
  intro l
  induction l with
  | nil =>
    intro p q h
    cases h
    rfl
  | cons c rest ih =>
    intro p q h
    rw [List.foldlM_cons] at h
    obtain ⟨p', hstep, hrest⟩ := mbind_eq_ok h
    exact (ih p' q hrest).trans (hg p c p' hstep)

/-- The traversal never changes the state it threads: `get_suffix_tree_aux`
returns the state it was given. -/
theorem get_suffix_tree_aux_state_eq :
    ∀ (fuel : Nat) (s : UkkState) (nodeId : Nat) (acc : List Int)
      (s' : UkkState) (out : List Int),
      get_suffix_tree_aux fuel s nodeId acc = .ok (s', out) → s' = s := by
  intro fuel
  induction fuel with
  | zero => intro s nodeId acc s' out h; exact Except.noConfusion h
  | succ fuel ih =>
    intro s nodeId acc s' out h
    rw [get_suffix_tree_aux] at h
    obtain ⟨nd, hnd, h⟩ := mbind_eq_ok h
    by_cases hleaf : nd.is_leaf
    · rw [if_pos hleaf] at h
      match hj : nd.j with
      | some jv => rw [hj] at h; cases h; rfl
      | none => rw [hj] at h; exact Except.noConfusion h
    · rw [if_neg hleaf] at h
      have := foldlM_fst_eq
        (fun p c =>
          match c with
          | none => pure p
          | some cid => get_suffix_tree_aux fuel p.1 cid p.2)
        (fun p c q hq => by
          match c with
          | none => cases hq; rfl
          | some cid => exact ih p.1 cid p.2 q.1 q.2 hq)
        nd.child_nodes (s, acc) (s', out) h
      exact this

/-- C7: after construction, the traversal mutates nothing — a successful
`get_suffix_tree` returns the state unchanged, and calling it again on the
state it returned yields the identical result (idempotent, restartable). -/
theorem C7_traversal_read_only {s s' : UkkState} {out : List Int}
    (h : get_suffix_tree s = .ok (s', out)) :
    s' = s ∧ get_suffix_tree s' = .ok (s', out) := by
  have hs : s' = s := by
    unfold get_suffix_tree at h
    exact get_suffix_tree_aux_state_eq _ s 0 [] s' out h
  subst hs
  exact ⟨rfl, h⟩

/-! ### C6: extension rule 3 (showstopper) freezes `j` and stops the phase -/

/-- C6: in an extension where the relevant child slot of the active node is
occupied and the character at text position `i` (the source compares
`text[i-1]`, the phase character) equals the character at the corresponding
offset along the existing edge, the inner-loop body signals the `break`
(`false`) without changing `j` or the relocated state: the phase's inner
loop stops immediately with `j` frozen. -/
theorem C6_showstopper (text : List Char) (i j : Int) (s s0 s1 : UkkState)
    (r : Nat) (ch c1 : Char) (an ae : Node) (edgeId : Nat)
    (hs0 : s0 = if s.active_node = 0 then { s with active_length := i - j }
      else s)
    (hskip : skip_count text i (s0.nodes.length + 1) s0.active_node
      s0.active_length s0 = .ok (s1, r))
    (hch : pyGet text (i - s1.active_length) = .ok ch)
    (han : getNode s1 s1.active_node = .ok an)
    (hedge : pyGet an.child_nodes ((ch.toNat : Int) - 36) = .ok (some edgeId))
    (hae : getNode s1 edgeId = .ok ae)
    (hc1 : pyGet text (i - 1) = .ok c1)
    (hc2 : pyGet text (ae.start + s1.active_length - 1) = .ok c1) :
    extension_body text i j s = .ok (s1, j, false) := by
  simp only [extension_body, ← hs0, hskip, hch, han, hedge, hae, hc1, hc2,
    mbind_ok]
  simp only [ne_eq, not_true_eq_false, if_false, ite_false]
  rfl

/-- C6 witness: the concrete showstopper of input `"aa"` at phase `i = 2`,
pending extension `j = 1`: the phase character `'a'` is already on the open
leaf edge, so the body reports the break with `j` still `1`. -/
theorem C6_witness :
    extension_body ("aa$".toList) 2 1 aaPhase2State =
      .ok ({ aaPhase2State with active_length := 1 }, 1, false) :=
  C6_showstopper ("aa$".toList) 2 1 aaPhase2State
    { aaPhase2State with active_length := 1 }
    { aaPhase2State with active_length := 1 } 0 'a' 'a'
    { start := 0, end_ := .globalEnd, suffix_link := some 0, j := none,
      leaf_node := false,
      child_nodes := (List.replicate 91 (none : Option Nat)).set 61 (some 1) }
    { start := 0, end_ := .globalEnd, suffix_link := some 0, j := some 0,
      leaf_node := true, child_nodes := List.replicate 91 none }
    1 (by decide) (by decide) (by decide) (by decide) (by decide) (by decide)
    (by decide) (by decide)

/-- C7 witness: for the tree built from input `"a"`, the traversal returns
`[2, 1]`, leaves the state untouched, and re-running it reproduces the
result. -/
theorem C7_witness :
    treeOfA = treeOfA ∧ get_suffix_tree treeOfA = .ok (treeOfA, [2, 1]) :=
  C7_traversal_read_only (by decide)

/-! ### Basic inversion lemmas for the heap operations -/

/-- A successful `getNode` returns a member of the heap. -/
theorem getNode_mem {s : UkkState} {idx : Nat} {nd : Node}
    (h : getNode s idx = .ok nd) : nd ∈ s.nodes := by
  unfold getNode at h
  cases hg : s.nodes.get? idx with
  | some x => rw [hg] at h; cases h; exact List.get?_mem hg
  | none => rw [hg] at h; exact Except.noConfusion h

/-- A successful `setNode` replaces one heap entry and nothing else. -/
theorem setNode_ok {s : UkkState} {idx : Nat} {nd : Node} {s' : UkkState}
    (h : setNode s idx nd = .ok s') :
    s' = { s with nodes := s.nodes.set idx nd } := by
  unfold setNode at h
  by_cases hc : idx < s.nodes.length
  · rw [if_pos hc] at h; cases h; rfl
  · rw [if_neg hc] at h; exact Except.noConfusion h

/-- Elements of a successfully written child list come from the old list or
are the written value. -/
theorem pySet_mem {α : Type} {l : List α} {i : Int} {a : α} {l' : List α}
    (h : pySet l i a = .ok l') : ∀ x ∈ l', x ∈ l ∨ x = a := by
  unfold pySet at h
  by_cases h1 : (if i < 0 then i + l.length else i) < 0
  · rw [if_pos h1] at h; exact Except.noConfusion h
  · rw [if_neg h1] at h
    by_cases h2 : (if i < 0 then i + l.length else i).toNat < l.length
    · rw [if_pos h2] at h
      cases h
      intro x hx
      exact List.mem_or_eq_of_mem_set hx
    · rw [if_neg h2] at h; exact Except.noConfusion h

/-- The property `stateOk` survives writing a node that satisfies it. -/
theorem stateOk_set {s : UkkState} {idx : Nat} {nd : Node} {s' : UkkState}
    (hs : stateOk s) (h : setNode s idx nd = .ok s')
    (hnd : nd.suffix_link = some 0 ∧ (nd.leaf_node = true → nd.end_ = .globalEnd)) :
    stateOk s' := by
  rw [setNode_ok h]
  intro x hx
  rcases List.mem_or_eq_of_mem_set hx with hmem | rfl
  · exact hs x hmem
  · exact hnd

/-- The property `stateOk` survives allocating a node that satisfies it. -/
theorem stateOk_alloc {s : UkkState} {nd : Node}
    (hs : stateOk s)
    (hnd : nd.suffix_link = some 0 ∧ (nd.leaf_node = true → nd.end_ = .globalEnd)) :
    stateOk (allocNode s nd).1 := by
  intro x hx
  rcases List.mem_append.mp hx with hmem | hmem
  · exact hs x hmem
  · rw [List.mem_singleton.mp hmem]; exact hnd

/-! ### `skip_count` only moves the active point -/

/-- A successful `skip_count` changes neither the heap nor the shared end
pointer (it only relocates the active node / active length). -/
theorem skip_count_frame :
    ∀ (fuel : Nat) (text : List Char) (cp : Int) (a : Nat) (al : Int)
      (s s' : UkkState) (r : Nat),
      skip_count text cp fuel a al s = .ok (s', r) →
      s'.nodes = s.nodes ∧ s'.end_pointer = s.end_pointer := by
  intro fuel
  induction fuel with
  | zero => intro text cp a al s s' r h; exact Except.noConfusion h
  | succ fuel ih =>
    intro text cp a al s s' r h
    rw [skip_count] at h
    obtain ⟨nd, hnd, h⟩ := mbind_eq_ok h
    by_cases h0 : (decide (al = 0) || nd.is_leaf) = true
    · rw [if_pos h0] at h
      cases h
      exact ⟨rfl, rfl⟩
    · rw [if_neg h0] at h
      obtain ⟨c, hc, h⟩ := mbind_eq_ok h
      obtain ⟨edge, hedge, h⟩ := mbind_eq_ok h
      cases edge with
      | none =>
        cases h
        exact ⟨rfl, rfl⟩
      | some edgeId =>
        obtain ⟨e, he, h⟩ := mbind_eq_ok h
        by_cases hlen :
            e.get_length
              { s with active_node := a, active_length := al }.end_pointer > al
        · rw [if_pos hlen] at h
          cases h
          exact ⟨rfl, rfl⟩
        · rw [if_neg hlen] at h
          exact ih text cp edgeId _
            { s with active_node := a, active_length := al } s' r h

/-! ### One extension step preserves the invariant -/

/-- The suffix-link move: under `stateOk`, `advance` increments `j`, sends
the active node to the root, signals continuation, and changes nothing
else. -/
theorem advance_ok {s : UkkState} {j : Int} {s' : UkkState} {j' : Int}
    {cont : Bool} (hs : stateOk s) (h : advance s j = .ok (s', j', cont)) :
    s' = { s with active_node := 0 } ∧ j' = j + 1 ∧ cont = true := by
  unfold advance at h
  obtain ⟨an, han, h⟩ := mbind_eq_ok h
  have hsl := (hs an (getNode_mem han)).1
  rw [hsl] at h
  cases h
  exact ⟨rfl, rfl, rfl⟩

/-- One inner-loop body step preserves `stateOk` and the shared end
pointer; on a successful extension (`cont = true`) it increments `j` and
returns the active node to the root (id `0`). -/
theorem extension_body_stateOk {text : List Char} {i j : Int}
    {s s' : UkkState} {j' : Int} {cont : Bool} (hs : stateOk s)
    (h : extension_body text i j s = .ok (s', j', cont)) :
    stateOk s' ∧ s'.end_pointer = s.end_pointer ∧
      (cont = true → s'.active_node = 0 ∧ j' = j + 1) := by
  unfold extension_body at h
  obtain ⟨⟨s1, r1⟩, hskip, h⟩ := mbind_eq_ok h
  dsimp only at h
  obtain ⟨hnodes1, hep1⟩ := skip_count_frame _ _ _ _ _ _ _ _ hskip
  have hs1 : stateOk s1 := by
    intro x hx
    rw [hnodes1] at hx
    split at hx <;> exact hs x hx
  have hep1' : s1.end_pointer = s.end_pointer := by
    rw [hep1]
    split <;> rfl
  obtain ⟨ch, hch, h⟩ := mbind_eq_ok h
  obtain ⟨an, han, h⟩ := mbind_eq_ok h
  obtain ⟨aeo, hedge, h⟩ := mbind_eq_ok h
  cases aeo with
  | none =>
    obtain ⟨an2, han2, h⟩ := mbind_eq_ok h
    obtain ⟨children, hch2, h⟩ := mbind_eq_ok h
    obtain ⟨s3, hset, h⟩ := mbind_eq_ok h
    have hs2 : stateOk (allocNode s1
        { Node.mkNode (i - s1.active_length) .globalEnd (some 0) true with
          j := some j }).1 :=
      stateOk_alloc hs1 ⟨rfl, fun _ => rfl⟩
    have hP : an2.suffix_link = some 0 ∧
        (an2.leaf_node = true → an2.end_ = .globalEnd) :=
      hs2 an2 (getNode_mem han2)
    have hs3 : stateOk s3 := stateOk_set hs2 hset ⟨hP.1, hP.2⟩
    obtain ⟨rfl, rfl, rfl⟩ := advance_ok hs3 h
    refine ⟨hs3, ?_, fun _ => ⟨rfl, rfl⟩⟩
    have := congrArg UkkState.end_pointer (setNode_ok hset)
    simp only at this
    rw [this]
    exact hep1'
  | some edgeId =>
    obtain ⟨ae, hae, h⟩ := mbind_eq_ok h
    obtain ⟨c1, hc1, h⟩ := mbind_eq_ok h
    obtain ⟨c2, hc2, h⟩ := mbind_eq_ok h
    by_cases hne : c1 ≠ c2
    · rw [if_pos hne] at h
      obtain ⟨an2, han2, h⟩ := mbind_eq_ok h
      obtain ⟨children, hch2, h⟩ := mbind_eq_ok h
      obtain ⟨s3, hset3, h⟩ := mbind_eq_ok h
      obtain ⟨cc, hcc, h⟩ := mbind_eq_ok h
      obtain ⟨s4, hset4, h⟩ := mbind_eq_ok h
      obtain ⟨ex, hex, h⟩ := mbind_eq_ok h
      obtain ⟨exChildren, hexch, h⟩ := mbind_eq_ok h
      obtain ⟨s5, hset5, h⟩ := mbind_eq_ok h
      obtain ⟨nc, hnc, h⟩ := mbind_eq_ok h
      obtain ⟨ex2, hex2, h⟩ := mbind_eq_ok h
      obtain ⟨exChildren2, hexch2, h⟩ := mbind_eq_ok h
      obtain ⟨s6, hset6, h⟩ := mbind_eq_ok h
      have hs2 : stateOk (allocNode s1
          (Node.mkNode ae.start
            (.fixedEnd (ae.start + s1.active_length - 1)) (some 0) false)).1 :=
        stateOk_alloc hs1 ⟨rfl, fun hl => Bool.noConfusion hl⟩
      have hPan2 := hs2 an2 (getNode_mem han2)
      have hs3 : stateOk s3 := stateOk_set hs2 hset3 ⟨hPan2.1, hPan2.2⟩
      have hs4 : stateOk s4 := by
        refine stateOk_set hs3 hset4 ?_
        have := hs1 ae (getNode_mem hae)
        exact ⟨this.1, this.2⟩
      have hPex := hs4 ex (getNode_mem hex)
      have hs5 : stateOk s5 := stateOk_set hs4 hset5 ⟨hPex.1, hPex.2⟩
      have hs5' : stateOk (allocNode s5
          { Node.mkNode (i - 1) .globalEnd (some 0) true with
            j := some j }).1 :=
        stateOk_alloc hs5 ⟨rfl, fun _ => rfl⟩
      have hPex2 := hs5' ex2 (getNode_mem hex2)
      have hs6 : stateOk s6 := stateOk_set hs5' hset6 ⟨hPex2.1, hPex2.2⟩
      obtain ⟨rfl, rfl, rfl⟩ := advance_ok hs6 h
      refine ⟨hs6, ?_, fun _ => ⟨rfl, rfl⟩⟩
      have e6 := congrArg UkkState.end_pointer (setNode_ok hset6)
      have e5 := congrArg UkkState.end_pointer (setNode_ok hset5)
      have e4 := congrArg UkkState.end_pointer (setNode_ok hset4)
      have e3 := congrArg UkkState.end_pointer (setNode_ok hset3)
      simp only at e3 e4 e5 e6
      rw [e6]
      show s5.end_pointer = s.end_pointer
      rw [e5, e4, e3]
      exact hep1'
    · rw [if_neg hne] at h
      cases h
      exact ⟨hs1, hep1', fun hcf => Bool.noConfusion hcf⟩

/-- The inner extension loop preserves `stateOk` and the end pointer. -/
theorem inner_loop_stateOk :
    ∀ (fuel : Nat) (text : List Char) (i j : Int) (s s' : UkkState)
      (j' : Int), stateOk s → inner_loop text i fuel j s = .ok (s', j') →
      stateOk s' ∧ s'.end_pointer = s.end_pointer := by
  intro fuel
  induction fuel with
  | zero => intro text i j s s' j' hs h; exact Except.noConfusion h
  | succ fuel ih =>
    intro text i j s s' j' hs h
    rw [inner_loop] at h
    by_cases hji : j < i
    · rw [if_pos hji] at h
      obtain ⟨⟨s1, j1, c1⟩, hext, h⟩ := mbind_eq_ok h
      dsimp only at h
      obtain ⟨hs1, hep1, _⟩ := extension_body_stateOk hs hext
      cases c1 with
      | true =>
        rw [if_pos rfl] at h
        obtain ⟨hs', hep'⟩ := ih text i j1 s1 s' j' hs1 h
        exact ⟨hs', hep'.trans hep1⟩
      | false =>
        rw [if_neg (by simp)] at h
        cases h
        exact ⟨hs1, hep1⟩
    · rw [if_neg hji] at h
      cases h
      exact ⟨hs, rfl⟩

/-- Each phase preserves `stateOk` and advances the shared end pointer by
exactly one; over the remaining phases the end pointer grows by the number
of phases left. -/
theorem phase_loop_frame :
    ∀ (fuel : Nat) (text : List Char) (n i j : Int) (s s' : UkkState)
      (j' : Int), stateOk s → phase_loop text n fuel i j s = .ok (s', j') →
      stateOk s' ∧
        s'.end_pointer = s.end_pointer + (if i ≤ n then n - i + 1 else 0) := by
  intro fuel
  induction fuel with
  | zero => intro text n i j s s' j' hs h; exact Except.noConfusion h
  | succ fuel ih =>
    intro text n i j s s' j' hs h
    rw [phase_loop] at h
    by_cases hin : i ≤ n
    · rw [if_pos hin] at h
      obtain ⟨⟨s1, j1⟩, hinner, h⟩ := mbind_eq_ok h
      dsimp only at h
      have hsE : stateOk { s with end_pointer := s.end_pointer + 1 } :=
        fun x hx => hs x hx
      obtain ⟨hs1, hep1⟩ := inner_loop_stateOk _ _ _ _ _ _ _ hsE hinner
      simp only at hep1
      have hs1' : stateOk { s1 with active_length := s1.active_length + 1 } :=
        fun x hx => hs1 x hx
      obtain ⟨hs', hep'⟩ := ih text n (i + 1) j1 _ s' j' hs1' h
      refine ⟨hs', ?_⟩
      rw [hep']
      show s1.end_pointer + _ = _
      rw [hep1, if_pos hin]
      by_cases hin2 : i + 1 ≤ n
      · rw [if_pos hin2]; omega
      · rw [if_neg hin2]; omega
    · rw [if_neg hin] at h
      cases h
      exact ⟨hs, by rw [if_neg hin]; omega⟩

/-- The fresh instance state satisfies the invariant. -/
theorem ukkonen_init_stateOk (ep0 : Int) : stateOk (ukkonen_init ep0) := by
  intro nd hnd
  simp only [ukkonen_init] at hnd
  rw [List.mem_singleton] at hnd
  subst hnd
  exact ⟨rfl, fun _ => rfl⟩

/-- After a successful construction the invariant holds, and the shared end
pointer was advanced once per phase: `n + 1` times for the `n`-character
terminator-appended text. -/
theorem ukkonenTree_stateOk (text0 : List Char) (ep0 : Int) (s' : UkkState)
    (h : ukkonenTree text0 ep0 = .ok s') :
    stateOk s' ∧ s'.end_pointer = ep0 + ((text0.length : Int) + 2) := by
  unfold ukkonenTree run_algorithm at h
  obtain ⟨⟨sf, jf⟩, hrun, h⟩ := mbind_eq_ok h
  cases h
  obtain ⟨hs', hep⟩ :=
    phase_loop_frame _ _ _ _ _ _ _ _ (ukkonen_init_stateOk ep0) hrun
  refine ⟨hs', ?_⟩
  have hn : ((text0 ++ ['$']).length : Int) = (text0.length : Int) + 1 := by
    simp
  rw [if_pos (by omega : (0 : Int) ≤ ((text0 ++ ['$']).length : Int))] at hep
  show sf.end_pointer = _
  rw [hep, hn]
  show ep0 + _ = _
  omega

/-! ### C9: the suffix-link discipline -/

/-- C9: at every point during and after construction every node's suffix
link points at the root — initially (the root's own link is the root
itself, id 0), after each inner-loop extension step (assuming the invariant
going in, as every reachable state does), and in the final tree; moreover
after a successful extension (rule 2a or 2b) the active node has been moved
along the suffix link back to the root. -/
theorem C9_suffix_links :
    (∀ ep0 : Int, ∀ nd ∈ (ukkonen_init ep0).nodes, nd.suffix_link = some 0) ∧
    (∀ (text : List Char) (i j : Int) (s s' : UkkState) (j' : Int)
      (cont : Bool), stateOk s → extension_body text i j s = .ok (s', j', cont) →
      (∀ nd ∈ s'.nodes, nd.suffix_link = some 0) ∧
        (cont = true → s'.active_node = 0)) ∧
    (∀ (text0 : List Char) (ep0 : Int) (s' : UkkState),
      ukkonenTree text0 ep0 = .ok s' →
      ∀ nd ∈ s'.nodes, nd.suffix_link = some 0) := by
  refine ⟨?_, ?_, ?_⟩
  · intro ep0 nd hnd
    exact (ukkonen_init_stateOk ep0 nd hnd).1
  · intro text i j s s' j' cont hs h
    obtain ⟨hs', _, hroot⟩ := extension_body_stateOk hs h
    exact ⟨fun nd hnd => (hs' nd hnd).1, fun hc => (hroot hc).1⟩
  · intro text0 ep0 s' h nd hnd
    exact ((ukkonenTree_stateOk text0 ep0 s' h).1 nd hnd).1

/-- C9 witness: the tree constructed from `"a"` — every node's suffix link
is the root. -/
theorem C9_witness : ∀ nd ∈ treeOfA.nodes, nd.suffix_link = some 0 :=
  C9_suffix_links.2.2 ['a'] (-1) treeOfA (by decide)

/-! ### C10: the shared default `End` object -/

/-- C10: in the source, `Ukkonen.__init__`'s default argument `end: End =
End()` is evaluated once at function-definition time, so every construction
that omits the argument shares one `End` cell; the embedding makes the
cell's starting value `ep0` explicit.  Consequences proved here: a
construction leaves the shared cell at `ep0 + len + 2` (one `extend()` per
phase), so a second default construction starts from the value the first
left — for a first construction from a fresh cell (`ep0 = -1`) that is
`len + 1`, never `-1`; and every leaf of the finished tree aliases the
shared cell (`globalEnd`), so each later `extend()` changes `get_end()` of
every leaf of the earlier tree. -/
theorem C10_shared_end :
    ∀ (text0 : List Char) (ep0 : Int) (s' : UkkState),
      ukkonenTree text0 ep0 = .ok s' →
      s'.end_pointer = ep0 + ((text0.length : Int) + 2) ∧
      (ep0 = -1 → s'.end_pointer = (text0.length : Int) + 1 ∧
        s'.end_pointer ≠ -1) ∧
      (∀ nd ∈ s'.nodes, nd.leaf_node = true →
        nd.end_ = .globalEnd ∧
          ∀ ep : Int, nd.get_end (ep + 1) = nd.get_end ep + 1) := by
  intro text0 ep0 s' h
  obtain ⟨hs', hep⟩ := ukkonenTree_stateOk text0 ep0 s' h
  refine ⟨hep, ?_, ?_⟩
  · intro hm1
    subst hm1
    constructor
    · rw [hep]; omega
    · rw [hep]
      have : (0 : Int) ≤ (text0.length : Int) := by positivity
      omega
  · intro nd hnd hleaf
    have hg := (hs' nd hnd).2 hleaf
    refine ⟨hg, fun ep => ?_⟩
    simp [Node.get_end, hg]

/-- C10 witness: after building from `"a"` starting at the fresh value
`-1`, the shared cell reads `2` (not `-1`), and advancing it bumps
`get_end()` of the leaf that represents suffix 0. -/
theorem C10_witness :
    treeOfA.end_pointer = 2 ∧ treeOfA.end_pointer ≠ -1 := by
  obtain ⟨h1, h2, h3⟩ := C10_shared_end ['a'] (-1) treeOfA (by decide)
  refine ⟨?_, (h2 rfl).2⟩
  rw [h1]
  norm_num

/-! ### Deep structural invariant: helper lemmas -/

/-- A successful `getNode` is a successful heap lookup. -/
theorem getNode_get? {s : UkkState} {idx : Nat} {nd : Node}
    (h : getNode s idx = .ok nd) : s.nodes.get? idx = some nd := by
  unfold getNode at h
  cases hg : s.nodes.get? idx with
  | some x => rw [hg] at h; cases h; rfl
  | none => rw [hg] at h; exact Except.noConfusion h

/-- A successful `getNode` index is in bounds. -/
theorem getNode_lt {s : UkkState} {idx : Nat} {nd : Node}
    (h : getNode s idx = .ok nd) : idx < s.nodes.length := by
  by_contra hlt
  have hg := getNode_get? h
  rw [List.get?_eq_none.mpr (le_of_not_lt hlt)] at hg
  exact Option.noConfusion hg

/-- A successful Python read returns a member of the list. -/
theorem pyGet_mem {α : Type} {l : List α} {i : Int} {a : α}
    (h : pyGet l i = .ok a) : a ∈ l := by
  unfold pyGet at h
  by_cases h1 : (if i < 0 then i + l.length else i) < 0
  · rw [if_pos h1] at h; exact Except.noConfusion h
  · rw [if_neg h1] at h
    cases hg : l.get? (if i < 0 then i + l.length else i).toNat with
    | some x => rw [hg] at h; cases h; exact List.get?_mem hg
    | none => rw [hg] at h; exact Except.noConfusion h

/-- A successful Python write is a `List.set` at an in-range position. -/
theorem pySet_ok {α : Type} {l : List α} {i : Int} {a : α} {l' : List α}
    (h : pySet l i a = .ok l') :
    ∃ k : Nat, k < l.length ∧ l' = l.set k a := by
  unfold pySet at h
  by_cases h1 : (if i < 0 then i + l.length else i) < 0
  · rw [if_pos h1] at h; exact Except.noConfusion h
  · rw [if_neg h1] at h
    by_cases h2 : (if i < 0 then i + l.length else i).toNat < l.length
    · rw [if_pos h2] at h
      cases h
      exact ⟨_, h2, rfl⟩
    · rw [if_neg h2] at h; exact Except.noConfusion h

/-- Fresh nodes have no occupied child slots. -/
theorem mkNode_no_children {c : Nat} {start : Int} {e : NodeEnd}
    {sl : Option Nat} {lf : Bool}
    (h : some c ∈ (Node.mkNode start e sl lf).child_nodes) : False := by
  have := List.eq_of_mem_replicate h
  exact Option.noConfusion this

/-- The fresh instance state satisfies the deep invariant. -/
theorem ukkonen_init_heapInv (ep0 : Int) : heapInv (ukkonen_init ep0) := by
  refine ⟨by simp [ukkonen_init], ?_, ?_, ⟨fun _ => 0, ?_⟩, by simp [ukkonen_init]⟩
  · intro nd hnd c hc
    simp only [ukkonen_init] at hnd
    rw [List.mem_singleton] at hnd
    subst hnd
    exact absurd (List.eq_of_mem_replicate hc) (Option.noConfusion)
  · intro k nd hget hk
    simp only [ukkonen_init] at hget
    cases k with
    | zero => exact absurd rfl hk
    | succ m => exact absurd hget (by simp)
  · intro k nd hget c hc
    simp only [ukkonen_init] at hget
    cases k with
    | zero =>
      simp only [List.get?] at hget
      cases hget
      exact absurd (List.eq_of_mem_replicate hc) (Option.noConfusion)
    | succ m => exact absurd hget (by simp)

/-- `skip_count` preserves the deep invariant: it only relocates the active
point, and only ever to nodes reachable through child slots. -/
theorem skip_count_heapInv :
    ∀ (fuel : Nat) (text : List Char) (cp : Int) (a : Nat) (al : Int)
      (s s' : UkkState) (r : Nat),
      heapInv s → a < s.nodes.length →
      skip_count text cp fuel a al s = .ok (s', r) → heapInv s' := by
  intro fuel
  induction fuel with
  | zero => intro text cp a al s s' r hinv ha h; exact Except.noConfusion h
  | succ fuel ih =>
    intro text cp a al s s' r hinv ha h
    rw [skip_count] at h
    obtain ⟨nd, hnd, h⟩ := mbind_eq_ok h
    by_cases h0 : (decide (al = 0) || nd.is_leaf) = true
    · rw [if_pos h0] at h
      cases h
      exact hinv
    · rw [if_neg h0] at h
      obtain ⟨c, hc, h⟩ := mbind_eq_ok h
      obtain ⟨edge, hedge, h⟩ := mbind_eq_ok h
      have hinv' : heapInv { s with active_node := a, active_length := al } :=
        ⟨hinv.1, hinv.2.1, hinv.2.2.1, hinv.2.2.2.1, ha⟩
      cases edge with
      | none =>
        cases h
        exact hinv'
      | some edgeId =>
        obtain ⟨e, he, h⟩ := mbind_eq_ok h
        have hedgeBound : edgeId ≠ 0 ∧ edgeId < s.nodes.length :=
          hinv.2.1 nd (getNode_mem hnd) edgeId (pyGet_mem hedge)
        by_cases hlen :
            e.get_length
              { s with active_node := a, active_length := al }.end_pointer > al
        · rw [if_pos hlen] at h
          cases h
          exact hinv'
        · rw [if_neg hlen] at h
          exact ih text cp edgeId _ _ s' r hinv' hedgeBound.2 h

/-- One inner-loop body step preserves the deep invariant; a continuing
step increments `j`, a showstopper leaves `j` frozen. -/
theorem extension_body_heapInv {text : List Char} {i j : Int}
    {s s' : UkkState} {j' : Int} {cont : Bool}
    (hso : stateOk s) (hinv : heapInv s)
    (h : extension_body text i j s = .ok (s', j', cont)) :
    heapInv s' ∧ (cont = true → j' = j + 1) ∧ (cont = false → j' = j) := by
  unfold extension_body at h
  obtain ⟨⟨s1, r1⟩, hskip, h⟩ := mbind_eq_ok h
  dsimp only at h
  have hinv0 : heapInv
      (if s.active_node = 0 then { s with active_length := i - j } else s) := by
    split
    · exact ⟨hinv.1, hinv.2.1, hinv.2.2.1, hinv.2.2.2.1, hinv.2.2.2.2⟩
    · exact hinv
  have hinv1 : heapInv s1 :=
    skip_count_heapInv _ _ _ _ _ _ _ _ hinv0 hinv0.2.2.2.2 hskip
  obtain ⟨hnodes1, hep1⟩ := skip_count_frame _ _ _ _ _ _ _ _ hskip
  have hso1 : stateOk s1 := by
    intro x hx
    rw [hnodes1] at hx
    split at hx <;> exact hso x hx
  obtain ⟨ch, hch, h⟩ := mbind_eq_ok h
  obtain ⟨an, han, h⟩ := mbind_eq_ok h
  obtain ⟨aeo, hedge, h⟩ := mbind_eq_ok h
  have hanget : s1.nodes.get? s1.active_node = some an := getNode_get? han
  have haIdx : s1.active_node < s1.nodes.length := hinv1.2.2.2.2
  have hanmem : an ∈ s1.nodes := List.get?_mem hanget
  have hlen1 : 1 ≤ s1.nodes.length := hinv1.1
  cases aeo with
  | none =>
    obtain ⟨an2, han2, h⟩ := mbind_eq_ok h
    obtain ⟨children, hch2, h⟩ := mbind_eq_ok h
    obtain ⟨s3, hset, h⟩ := mbind_eq_ok h
    have h2get : (s1.nodes ++
        [{ Node.mkNode (i - s1.active_length) .globalEnd (some 0) true with
           j := some j }]).get? s1.active_node = some an2 := getNode_get? han2
    rw [List.get?_append haIdx, hanget] at h2get
    obtain rfl : an = an2 := Option.some.inj h2get
    obtain ⟨kk, hkk, hchEq⟩ := pySet_ok hch2
    have hs3 : s3 = { s1 with nodes :=
        ((s1.nodes ++
          [{ Node.mkNode (i - s1.active_length) .globalEnd (some 0) true with
             j := some j }]).set s1.active_node
          ({ an with child_nodes := children })) } := setNode_ok hset
    subst hs3
    have hchild : ∀ c : Nat, some c ∈ children →
        c ≠ 0 ∧ c < s1.nodes.length + 1 := by
      intro c hc
      rw [hchEq] at hc
      rcases List.mem_or_eq_of_mem_set hc with hc | hc
      · obtain ⟨h1, h2⟩ := hinv1.2.1 an hanmem c hc
        exact ⟨h1, by omega⟩
      · obtain rfl : c = s1.nodes.length := Option.some.inj hc
        exact ⟨by omega, by omega⟩
    have hso3 : stateOk { s1 with nodes :=
        ((s1.nodes ++
          [{ Node.mkNode (i - s1.active_length) .globalEnd (some 0) true with
             j := some j }]).set s1.active_node
          ({ an with child_nodes := children })) } := by
      intro x hx
      rcases List.mem_or_eq_of_mem_set hx with hx | rfl
      · rcases List.mem_append.mp hx with hx | hx
        · exact hso1 x hx
        · rw [List.mem_singleton.mp hx]
          exact ⟨rfl, fun _ => rfl⟩
      · exact ⟨(hso1 an hanmem).1, (hso1 an hanmem).2⟩
    obtain ⟨rfl, rfl, rfl⟩ := advance_ok hso3 h
    refine ⟨?_, fun _ => rfl, fun hc => Bool.noConfusion hc⟩
    obtain ⟨rank, hrank⟩ := hinv1.2.2.2.1
    refine ⟨?_, ?_, ?_, ?_, ?_⟩
    · simp only [List.length_set, List.length_append, List.length_singleton]
      omega
    · intro nd' hmem c hcmem
      simp only [List.length_set, List.length_append, List.length_singleton]
      rcases List.mem_or_eq_of_mem_set hmem with hmem | rfl
      · rcases List.mem_append.mp hmem with hmem | hmem
        · obtain ⟨h1, h2⟩ := hinv1.2.1 nd' hmem c hcmem
          exact ⟨h1, by omega⟩
        · rw [List.mem_singleton.mp hmem] at hcmem
          exact absurd (List.eq_of_mem_replicate hcmem) (Option.noConfusion)
      · exact hchild c hcmem
    · intro k nd' hget hk
      by_cases hka : k = s1.active_node
      · subst hka
        rw [List.get?_set_eq_of_lt _ (by
          simp only [List.length_append, List.length_singleton]
          omega)] at hget
        obtain rfl := Option.some.inj hget
        exact fun hg => hinv1.2.2.1 s1.active_node an hanget hk hg
      · rw [List.get?_set_ne _ _ (fun hh => hka hh.symm)] at hget
        by_cases hklen : k < s1.nodes.length
        · rw [List.get?_append hklen] at hget
          exact hinv1.2.2.1 k nd' hget hk
        · rw [List.get?_append_right (le_of_not_lt hklen)] at hget
          cases hkl : k - s1.nodes.length with
          | zero =>
            rw [hkl] at hget
            obtain rfl := Option.some.inj hget
            exact fun _ => rfl
          | succ m =>
            rw [hkl] at hget
            exact absurd hget (by simp)
    · refine ⟨fun x => if x = s1.nodes.length then 0 else rank x + 1, ?_⟩
      intro k nd' hget c hcmem
      dsimp only
      by_cases hka : k = s1.active_node
      · subst hka
        rw [List.get?_set_eq_of_lt _ (by
          simp only [List.length_append, List.length_singleton]
          omega)] at hget
        obtain rfl := Option.some.inj hget
        rw [hchEq] at hcmem
        rcases List.mem_or_eq_of_mem_set hcmem with hc | hc
        · have hcr := hrank s1.active_node an hanget c hc
          have hcb := (hinv1.2.1 an hanmem c hc).2
          rw [if_neg (by omega), if_neg (by omega)]
          omega
        · obtain rfl : c = s1.nodes.length := Option.some.inj hc
          rw [if_pos rfl, if_neg (by omega)]
          omega
      · rw [List.get?_set_ne _ _ (fun hh => hka hh.symm)] at hget
        by_cases hklen : k < s1.nodes.length
        · rw [List.get?_append hklen] at hget
          have hcr := hrank k nd' hget c hcmem
          have hcb := (hinv1.2.1 nd' (List.get?_mem hget) c hcmem).2
          rw [if_neg (by omega), if_neg (by omega)]
          omega
        · rw [List.get?_append_right (le_of_not_lt hklen)] at hget
          cases hkl : k - s1.nodes.length with
          | zero =>
            rw [hkl] at hget
            obtain rfl := Option.some.inj hget
            exact absurd (List.eq_of_mem_replicate hcmem) (Option.noConfusion)
          | succ m =>
            rw [hkl] at hget
            exact absurd hget (by simp)
    · simp only [List.length_set, List.length_append, List.length_singleton]
      omega
  | some edgeId =>
    obtain ⟨ae, hae, h⟩ := mbind_eq_ok h
    obtain ⟨c1, hc1, h⟩ := mbind_eq_ok h
    obtain ⟨c2, hc2, h⟩ := mbind_eq_ok h
    have haeget : s1.nodes.get? edgeId = some ae := getNode_get? hae
    have haemem : ae ∈ s1.nodes := List.get?_mem haeget
    have hedgeB : edgeId ≠ 0 ∧ edgeId < s1.nodes.length :=
      hinv1.2.1 an hanmem edgeId (pyGet_mem hedge)
    by_cases hne : c1 ≠ c2
    · rw [if_pos hne] at h
      obtain ⟨an2, han2, h⟩ := mbind_eq_ok h
      obtain ⟨children, hch2, h⟩ := mbind_eq_ok h
      obtain ⟨s3, hset3, h⟩ := mbind_eq_ok h
      obtain ⟨cc, hcc, h⟩ := mbind_eq_ok h
      obtain ⟨s4, hset4, h⟩ := mbind_eq_ok h
      obtain ⟨ex, hex, h⟩ := mbind_eq_ok h
      obtain ⟨exChildren, hexch, h⟩ := mbind_eq_ok h
      obtain ⟨s5, hset5, h⟩ := mbind_eq_ok h
      obtain ⟨nc, hnc, h⟩ := mbind_eq_ok h
      obtain ⟨ex2, hex2, h⟩ := mbind_eq_ok h
      obtain ⟨exChildren2, hexch2, h⟩ := mbind_eq_ok h
      obtain ⟨s6, hset6, h⟩ := mbind_eq_ok h
      obtain ⟨rank, hrank⟩ := hinv1.2.2.2.1
      have hrae : rank edgeId < rank s1.active_node :=
        hrank s1.active_node an hanget edgeId (pyGet_mem hedge)
      have hneae : edgeId ≠ s1.active_node := fun hh => by
        rw [hh] at hrae
        exact lt_irrefl _ hrae
      have h2get : (s1.nodes ++
          [Node.mkNode ae.start
            (.fixedEnd (ae.start + s1.active_length - 1)) (some 0) false]
          ).get? s1.active_node = some an2 := getNode_get? han2
      rw [List.get?_append haIdx, hanget] at h2get
      obtain rfl : an = an2 := Option.some.inj h2get
      obtain ⟨k2, hk2, hchEq⟩ := pySet_ok hch2
      have hs3 : s3 = { s1 with nodes :=
          ((s1.nodes ++
            [Node.mkNode ae.start
              (.fixedEnd (ae.start + s1.active_length - 1)) (some 0) false]
            ).set s1.active_node ({ an with child_nodes := children })) } :=
        setNode_ok hset3
      subst hs3
      have hs4 : s4 = { s1 with nodes :=
          (((s1.nodes ++
            [Node.mkNode ae.start
              (.fixedEnd (ae.start + s1.active_length - 1)) (some 0) false]
            ).set s1.active_node ({ an with child_nodes := children })).set
            edgeId ({ ae with start := ae.start + s1.active_length - 1 })) } :=
        setNode_ok hset4
      subst hs4
      have hexget : (((s1.nodes ++
          [Node.mkNode ae.start
            (.fixedEnd (ae.start + s1.active_length - 1)) (some 0) false]
          ).set s1.active_node ({ an with child_nodes := children })).set
          edgeId ({ ae with start := ae.start + s1.active_length - 1 })
          ).get? s1.nodes.length = some ex := getNode_get? hex
      rw [List.get?_set_ne _ _ (by omega : edgeId ≠ s1.nodes.length),
        List.get?_set_ne _ _ (by omega : s1.active_node ≠ s1.nodes.length),
        List.get?_append_right (le_refl _), Nat.sub_self] at hexget
      obtain rfl := Option.some.inj hexget
      obtain ⟨k3, hk3, hexchEq⟩ := pySet_ok hexch
      have hs5 : s5 = { s1 with nodes :=
          ((((s1.nodes ++
            [Node.mkNode ae.start
              (.fixedEnd (ae.start + s1.active_length - 1)) (some 0) false]
            ).set s1.active_node ({ an with child_nodes := children })).set
            edgeId ({ ae with start := ae.start + s1.active_length - 1 })).set
            s1.nodes.length
            ({ Node.mkNode ae.start
                (.fixedEnd (ae.start + s1.active_length - 1)) (some 0) false
               with child_nodes := exChildren })) } := setNode_ok hset5
      subst hs5
      have hex2get : (((((s1.nodes ++
          [Node.mkNode ae.start
            (.fixedEnd (ae.start + s1.active_length - 1)) (some 0) false]
          ).set s1.active_node ({ an with child_nodes := children })).set
          edgeId ({ ae with start := ae.start + s1.active_length - 1 })).set
          s1.nodes.length
          ({ Node.mkNode ae.start
              (.fixedEnd (ae.start + s1.active_length - 1)) (some 0) false
             with child_nodes := exChildren })) ++
          [{ Node.mkNode (i - 1) .globalEnd (some 0) true with j := some j }]
          ).get? s1.nodes.length = some ex2 := getNode_get? hex2
      rw [List.get?_append (by simp),
        List.get?_set_eq_of_lt _ (by simp)] at hex2get
      obtain rfl := Option.some.inj hex2get
      obtain ⟨k4, hk4, hexch2Eq⟩ := pySet_ok hexch2
      have hs6 : s6 = { s1 with nodes :=
          ((((((s1.nodes ++
            [Node.mkNode ae.start
              (.fixedEnd (ae.start + s1.active_length - 1)) (some 0) false]
            ).set s1.active_node ({ an with child_nodes := children })).set
            edgeId ({ ae with start := ae.start + s1.active_length - 1 })).set
            s1.nodes.length
            ({ Node.mkNode ae.start
                (.fixedEnd (ae.start + s1.active_length - 1)) (some 0) false
               with child_nodes := exChildren })) ++
            [{ Node.mkNode (i - 1) .globalEnd (some 0) true with
               j := some j }]).set s1.nodes.length
            ({ Node.mkNode ae.start
                (.fixedEnd (ae.start + s1.active_length - 1)) (some 0) false
               with child_nodes := exChildren2 })) } := setNode_ok hset6
      subst hs6
      have hchildXa : ∀ c : Nat, some c ∈ children →
          c ≠ 0 ∧ c < s1.nodes.length + 2 := by
        intro c hc
        rw [hchEq] at hc
        rcases List.mem_or_eq_of_mem_set hc with hc | hc
        · obtain ⟨h1, h2⟩ := hinv1.2.1 an hanmem c hc
          exact ⟨h1, by omega⟩
        · obtain rfl : c = s1.nodes.length := Option.some.inj hc
          exact ⟨by omega, by omega⟩
      have hchildXx : ∀ c : Nat, some c ∈ exChildren →
          c = edgeId := by
        intro c hc
        rw [hexchEq] at hc
        rcases List.mem_or_eq_of_mem_set hc with hc | hc
        · exact absurd (List.eq_of_mem_replicate hc) (Option.noConfusion)
        · exact Option.some.inj hc
      have hchildXx2 : ∀ c : Nat, some c ∈ exChildren2 →
          c = edgeId ∨ c = s1.nodes.length + 1 := by
        intro c hc
        rw [hexch2Eq] at hc
        rcases List.mem_or_eq_of_mem_set hc with hc | hc
        · exact Or.inl (hchildXx c hc)
        · refine Or.inr ?_
          have hcv : c = ((((s1.nodes ++
              [Node.mkNode ae.start
                (.fixedEnd (ae.start + s1.active_length - 1)) (some 0) false]
              ).set s1.active_node ({ an with child_nodes := children })).set
              edgeId ({ ae with start := ae.start + s1.active_length - 1 })
              ).set s1.nodes.length
              ({ Node.mkNode ae.start
                  (.fixedEnd (ae.start + s1.active_length - 1)) (some 0) false
                 with child_nodes := exChildren })).length :=
            Option.some.inj hc
          rw [hcv]
          simp
      have hso6 : stateOk { s1 with nodes :=
          ((((((s1.nodes ++
            [Node.mkNode ae.start
              (.fixedEnd (ae.start + s1.active_length - 1)) (some 0) false]
            ).set s1.active_node ({ an with child_nodes := children })).set
            edgeId ({ ae with start := ae.start + s1.active_length - 1 })).set
            s1.nodes.length
            ({ Node.mkNode ae.start
                (.fixedEnd (ae.start + s1.active_length - 1)) (some 0) false
               with child_nodes := exChildren })) ++
            [{ Node.mkNode (i - 1) .globalEnd (some 0) true with
               j := some j }]).set s1.nodes.length
            ({ Node.mkNode ae.start
                (.fixedEnd (ae.start + s1.active_length - 1)) (some 0) false
               with child_nodes := exChildren2 })) } := by
        intro x hx
        rcases List.mem_or_eq_of_mem_set hx with hx | rfl
        · rcases List.mem_append.mp hx with hx | hx
          · rcases List.mem_or_eq_of_mem_set hx with hx | rfl
            · rcases List.mem_or_eq_of_mem_set hx with hx | rfl
              · rcases List.mem_or_eq_of_mem_set hx with hx | rfl
                · rcases List.mem_append.mp hx with hx | hx
                  · exact hso1 x hx
                  · rw [List.mem_singleton.mp hx]
                    exact ⟨rfl, fun hl => Bool.noConfusion hl⟩
                · exact ⟨(hso1 an hanmem).1, (hso1 an hanmem).2⟩
              · exact ⟨(hso1 ae haemem).1, (hso1 ae haemem).2⟩
            · exact ⟨rfl, fun hl => Bool.noConfusion hl⟩
          · rw [List.mem_singleton.mp hx]
            exact ⟨rfl, fun _ => rfl⟩
        · exact ⟨rfl, fun hl => Bool.noConfusion hl⟩
      obtain ⟨rfl, rfl, rfl⟩ := advance_ok hso6 h
      refine ⟨?_, fun _ => rfl, fun hc => Bool.noConfusion hc⟩
      refine ⟨?_, ?_, ?_, ?_, ?_⟩
      · simp only [List.length_set, List.length_append, List.length_singleton]
        omega
      · intro nd' hmem c hcmem
        simp only [List.length_set, List.length_append, List.length_singleton]
        rcases List.mem_or_eq_of_mem_set hmem with hmem | rfl
        · rcases List.mem_append.mp hmem with hmem | hmem
          · rcases List.mem_or_eq_of_mem_set hmem with hmem | rfl
            · rcases List.mem_or_eq_of_mem_set hmem with hmem | rfl
              · rcases List.mem_or_eq_of_mem_set hmem with hmem | rfl
                · rcases List.mem_append.mp hmem with hmem | hmem
                  · obtain ⟨h1, h2⟩ := hinv1.2.1 nd' hmem c hcmem
                    exact ⟨h1, by omega⟩
                  · rw [List.mem_singleton.mp hmem] at hcmem
                    exact absurd (List.eq_of_mem_replicate hcmem)
                      (Option.noConfusion)
                · obtain ⟨h1, h2⟩ := hchildXa c hcmem
                  exact ⟨h1, by omega⟩
              · obtain ⟨h1, h2⟩ := hinv1.2.1 ae haemem c hcmem
                exact ⟨h1, by omega⟩
            · obtain rfl := hchildXx c hcmem
              exact ⟨hedgeB.1, by omega⟩
          · rw [List.mem_singleton.mp hmem] at hcmem
            exact absurd (List.eq_of_mem_replicate hcmem) (Option.noConfusion)
        · rcases hchildXx2 c hcmem with rfl | rfl
          · exact ⟨hedgeB.1, by omega⟩
          · exact ⟨by omega, by omega⟩
      · intro k nd' hget hk
        by_cases hkx : k = s1.nodes.length
        · subst hkx
          rw [List.get?_set_eq_of_lt _ (by simp; omega)] at hget
          obtain rfl := Option.some.inj hget
          exact fun hg => NodeEnd.noConfusion hg
        · rw [List.get?_set_ne _ _ (fun hh => hkx hh.symm)] at hget
          by_cases hklen : k < s1.nodes.length + 1
          · rw [List.get?_append (by simpa using hklen)] at hget
            rw [List.get?_set_ne _ _ (by omega : s1.nodes.length ≠ k)] at hget
            by_cases hke : k = edgeId
            · subst hke
              rw [List.get?_set_eq_of_lt _ (by simp; omega)] at hget
              obtain rfl := Option.some.inj hget
              exact fun hg => hinv1.2.2.1 k ae haeget hk hg
            · rw [List.get?_set_ne _ _ (fun hh => hke hh.symm)] at hget
              by_cases hka : k = s1.active_node
              · subst hka
                rw [List.get?_set_eq_of_lt _ (by simp; omega)] at hget
                obtain rfl := Option.some.inj hget
                exact fun hg =>
                  hinv1.2.2.1 s1.active_node an hanget hk hg
              · rw [List.get?_set_ne _ _ (fun hh => hka hh.symm)] at hget
                rw [List.get?_append (by omega)] at hget
                exact hinv1.2.2.1 k nd' hget hk
          · rw [List.get?_append_right (by simpa using le_of_not_lt hklen)]
              at hget
            cases hkl : k - (((((s1.nodes ++
                [Node.mkNode ae.start
                  (.fixedEnd (ae.start + s1.active_length - 1)) (some 0) false]
                ).set s1.active_node ({ an with child_nodes := children })).set
                edgeId ({ ae with start := ae.start + s1.active_length - 1 })
                ).set s1.nodes.length
                ({ Node.mkNode ae.start
                    (.fixedEnd (ae.start + s1.active_length - 1)) (some 0)
                    false with child_nodes := exChildren }))).length with
            | zero =>
              rw [hkl] at hget
              obtain rfl := Option.some.inj hget
              exact fun _ => rfl
            | succ m =>
              rw [hkl] at hget
              exact absurd hget (by simp)
      · obtain ⟨rank2, hrank2⟩ : ∃ rank2 : Nat → Nat,
            rank2 = fun x => if x = s1.nodes.length + 1 then 0
              else if x = s1.nodes.length then 2 * rank edgeId + 3
              else 2 * rank x + 2 := ⟨_, rfl⟩
        refine ⟨rank2, ?_⟩
        intro k nd' hget c hcmem
        subst hrank2
        dsimp only
        by_cases hkx : k = s1.nodes.length
        · subst hkx
          rw [List.get?_set_eq_of_lt _ (by simp; omega)] at hget
          obtain rfl := Option.some.inj hget
          rcases hchildXx2 c hcmem with rfl | rfl
          · rw [if_neg (by omega), if_neg (by omega), if_neg (by omega),
              if_pos rfl]
            omega
          · rw [if_pos rfl, if_neg (by omega), if_pos rfl]
            omega
        · rw [List.get?_set_ne _ _ (fun hh => hkx hh.symm)] at hget
          by_cases hklen : k < s1.nodes.length + 1
          · rw [List.get?_append (by simpa using hklen)] at hget
            rw [List.get?_set_ne _ _ (by omega : s1.nodes.length ≠ k)] at hget
            by_cases hke : k = edgeId
            · subst hke
              rw [List.get?_set_eq_of_lt _ (by simp; omega)] at hget
              obtain rfl := Option.some.inj hget
              have hcr := hrank k ae haeget c hcmem
              have hcb := (hinv1.2.1 ae haemem c hcmem).2
              rw [if_neg (by omega), if_neg (by omega), if_neg (by omega),
                if_neg (by omega)]
              omega
            · rw [List.get?_set_ne _ _ (fun hh => hke hh.symm)] at hget
              by_cases hka : k = s1.active_node
              · subst hka
                rw [List.get?_set_eq_of_lt _ (by simp; omega)] at hget
                obtain rfl := Option.some.inj hget
                rw [hchEq] at hcmem
                rcases List.mem_or_eq_of_mem_set hcmem with hc | hc
                · have hcr := hrank s1.active_node an hanget c hc
                  have hcb := (hinv1.2.1 an hanmem c hc).2
                  rw [if_neg (by omega), if_neg (by omega), if_neg (by omega),
                    if_neg (by omega)]
                  omega
                · obtain rfl : c = s1.nodes.length := Option.some.inj hc
                  rw [if_neg (by omega), if_pos rfl, if_neg (by omega),
                    if_neg (by omega)]
                  omega
              · rw [List.get?_set_ne _ _ (fun hh => hka hh.symm)] at hget
                rw [List.get?_append (by omega)] at hget
                have hcr := hrank k nd' hget c hcmem
                have hcb := (hinv1.2.1 nd' (List.get?_mem hget) c hcmem).2
                rw [if_neg (by omega), if_neg (by omega), if_neg (by omega),
                  if_neg (by omega)]
                omega
          · rw [List.get?_append_right (by simpa using le_of_not_lt hklen)]
              at hget
            cases hkl : k - (((((s1.nodes ++
                [Node.mkNode ae.start
                  (.fixedEnd (ae.start + s1.active_length - 1)) (some 0) false]
                ).set s1.active_node ({ an with child_nodes := children })).set
                edgeId ({ ae with start := ae.start + s1.active_length - 1 })
                ).set s1.nodes.length
                ({ Node.mkNode ae.start
                    (.fixedEnd (ae.start + s1.active_length - 1)) (some 0)
                    false with child_nodes := exChildren }))).length with
            | zero =>
              rw [hkl] at hget
              obtain rfl := Option.some.inj hget
              exact absurd (List.eq_of_mem_replicate hcmem)
                (Option.noConfusion)
            | succ m =>
              rw [hkl] at hget
              exact absurd hget (by simp)
      · simp only [List.length_set, List.length_append, List.length_singleton]
        omega
    · rw [if_neg hne] at h
      cases h
      exact ⟨hinv1, fun hc => Bool.noConfusion hc, fun _ => rfl⟩

/-- The inner extension loop preserves the deep invariant. -/
theorem inner_loop_heapInv :
    ∀ (fuel : Nat) (text : List Char) (i j : Int) (s s' : UkkState)
      (j' : Int), stateOk s → heapInv s →
      inner_loop text i fuel j s = .ok (s', j') → heapInv s' := by
  intro fuel
  induction fuel with
  | zero => intro text i j s s' j' hso hinv h; exact Except.noConfusion h
  | succ fuel ih =>
    intro text i j s s' j' hso hinv h
    rw [inner_loop] at h
    by_cases hji : j < i
    · rw [if_pos hji] at h
      obtain ⟨⟨s1, j1, cont1⟩, hext, h⟩ := mbind_eq_ok h
      dsimp only at h
      obtain ⟨hso1, _, _⟩ := extension_body_stateOk hso hext
      obtain ⟨hinv1, _, _⟩ := extension_body_heapInv hso hinv hext
      cases cont1 with
      | true =>
        rw [if_pos rfl] at h
        exact ih text i j1 s1 s' j' hso1 hinv1 h
      | false =>
        rw [if_neg (by simp)] at h
        cases h
        exact hinv1
    · rw [if_neg hji] at h
      cases h
      exact hinv

/-- The phase loop preserves the deep invariant. -/
theorem phase_loop_heapInv :
    ∀ (fuel : Nat) (text : List Char) (n i j : Int) (s s' : UkkState)
      (j' : Int), stateOk s → heapInv s →
      phase_loop text n fuel i j s = .ok (s', j') → heapInv s' := by
  intro fuel
  induction fuel with
  | zero => intro text n i j s s' j' hso hinv h; exact Except.noConfusion h
  | succ fuel ih =>
    intro text n i j s s' j' hso hinv h
    rw [phase_loop] at h
    by_cases hin : i ≤ n
    · rw [if_pos hin] at h
      obtain ⟨⟨s1, j1⟩, hinner, h⟩ := mbind_eq_ok h
      dsimp only at h
      have hsoE : stateOk { s with end_pointer := s.end_pointer + 1 } :=
        fun x hx => hso x hx
      have hinvE : heapInv { s with end_pointer := s.end_pointer + 1 } :=
        ⟨hinv.1, hinv.2.1, hinv.2.2.1, hinv.2.2.2.1, hinv.2.2.2.2⟩
      obtain ⟨hso1, _⟩ := inner_loop_stateOk _ _ _ _ _ _ _ hsoE hinner
      have hinv1 := inner_loop_heapInv _ _ _ _ _ _ _ hsoE hinvE hinner
      exact ih text n (i + 1) j1
        { s1 with active_length := s1.active_length + 1 } s' j'
        (fun x hx => hso1 x hx)
        ⟨hinv1.1, hinv1.2.1, hinv1.2.2.1, hinv1.2.2.2.1, hinv1.2.2.2.2⟩ h
    · rw [if_neg hin] at h
      cases h
      exact hinv

/-! ### C8: all three loops terminate within their fuel -/

/-- Bind cannot exhaust fuel if neither side does. -/
theorem mbind_ne_fuelOut {α β : Type} {x : M α} {f : α → M β}
    (hx : x ≠ .error .fuelOut)
    (hf : ∀ a, x = .ok a → f a ≠ .error .fuelOut) :
    x >>= f ≠ .error .fuelOut := by
  cases x with
  | ok a => exact hf a rfl
  | error e =>
    intro hcon
    exact hx (by rw [Except.error.inj hcon])

/-- A Python read never exhausts fuel. -/
theorem pyGet_ne_fuelOut {α : Type} (l : List α) (i : Int) :
    pyGet l i ≠ .error .fuelOut := by
  unfold pyGet
  dsimp only
  generalize (if i < 0 then i + (l.length : Int) else i) = k
  split
  · intro hcon; exact Err.noConfusion (Except.error.inj hcon)
  · split
    · exact fun hcon => Except.noConfusion hcon
    · intro hcon; exact Err.noConfusion (Except.error.inj hcon)

/-- A Python write never exhausts fuel. -/
theorem pySet_ne_fuelOut {α : Type} (l : List α) (i : Int) (a : α) :
    pySet l i a ≠ .error .fuelOut := by
  unfold pySet
  dsimp only
  generalize (if i < 0 then i + (l.length : Int) else i) = k
  split
  · intro hcon; exact Err.noConfusion (Except.error.inj hcon)
  · split
    · exact fun hcon => Except.noConfusion hcon
    · intro hcon; exact Err.noConfusion (Except.error.inj hcon)

/-- A heap read never exhausts fuel. -/
theorem getNode_ne_fuelOut (s : UkkState) (idx : Nat) :
    getNode s idx ≠ .error .fuelOut := by
  unfold getNode
  cases s.nodes.get? idx with
  | some nd => exact fun hcon => Except.noConfusion hcon
  | none => intro hcon; exact Err.noConfusion (Except.error.inj hcon)

/-- A heap write never exhausts fuel. -/
theorem setNode_ne_fuelOut (s : UkkState) (idx : Nat) (nd : Node) :
    setNode s idx nd ≠ .error .fuelOut := by
  unfold setNode
  split
  · exact fun hcon => Except.noConfusion hcon
  · intro hcon; exact Err.noConfusion (Except.error.inj hcon)

/-- The suffix-link move never exhausts fuel. -/
theorem advance_ne_fuelOut (s : UkkState) (j : Int) :
    advance s j ≠ .error .fuelOut := by
  unfold advance
  refine mbind_ne_fuelOut (getNode_ne_fuelOut _ _) ?_
  intro an _
  cases an.suffix_link with
  | some l => exact fun hcon => Except.noConfusion hcon
  | none => intro hcon; exact Err.noConfusion (Except.error.inj hcon)

/-- The `while True` loop of `skip_count` terminates: with any fuel
exceeding the number of heap nodes of smaller rank than the current node,
`skip_count` never reports fuel exhaustion, because every descent follows a
child edge and the rank strictly decreases. -/
theorem skip_count_ne_fuelOut :
    ∀ (fuel : Nat) (text : List Char) (cp : Int) (a : Nat) (al : Int)
      (s : UkkState) (rank : Nat → Nat),
      (∀ k : Nat, ∀ nd : Node, s.nodes.get? k = some nd →
        ∀ c : Nat, some c ∈ nd.child_nodes → rank c < rank k) →
      (∀ nd ∈ s.nodes, ∀ c : Nat, some c ∈ nd.child_nodes →
        c ≠ 0 ∧ c < s.nodes.length) →
      ((Finset.range s.nodes.length).filter
        (fun x => rank x < rank a)).card < fuel →
      skip_count text cp fuel a al s ≠ .error .fuelOut := by
  intro fuel
  induction fuel with
  | zero =>
    intro text cp a al s rank hrank hbound hcard
    exact absurd hcard (by omega)
  | succ fuel ih =>
    intro text cp a al s rank hrank hbound hcard
    rw [skip_count]
    refine mbind_ne_fuelOut (getNode_ne_fuelOut _ _) ?_
    intro nd hnd
    split
    · exact fun hcon => Except.noConfusion hcon
    · refine mbind_ne_fuelOut (pyGet_ne_fuelOut _ _) ?_
      intro c _
      refine mbind_ne_fuelOut (pyGet_ne_fuelOut _ _) ?_
      intro edge hedge
      cases edge with
      | none => exact fun hcon => Except.noConfusion hcon
      | some edgeId =>
        refine mbind_ne_fuelOut (getNode_ne_fuelOut _ _) ?_
        intro e _
        split
        · exact fun hcon => Except.noConfusion hcon
        · have hr : rank edgeId < rank a :=
            hrank a nd (getNode_get? hnd) edgeId (pyGet_mem hedge)
          have hb : edgeId < s.nodes.length :=
            (hbound nd (getNode_mem hnd) edgeId (pyGet_mem hedge)).2
          have hsub : (Finset.range s.nodes.length).filter
              (fun x => rank x < rank edgeId) ⊂
              (Finset.range s.nodes.length).filter
              (fun x => rank x < rank a) := by
            rw [Finset.ssubset_iff_of_subset]
            · exact ⟨edgeId,
                Finset.mem_filter.mpr ⟨Finset.mem_range.mpr hb, hr⟩,
                fun hmem => absurd (Finset.mem_filter.mp hmem).2 (by omega)⟩
            · intro x hx
              obtain ⟨hx1, hx2⟩ := Finset.mem_filter.mp hx
              exact Finset.mem_filter.mpr ⟨hx1, by omega⟩
          have hlt := Finset.card_lt_card hsub
          refine ih text cp edgeId _
            { s with active_node := a, active_length := al } rank hrank hbound
            ?_
          show ((Finset.range s.nodes.length).filter
            (fun x => rank x < rank edgeId)).card < fuel
          omega

/-- One inner-loop body never exhausts fuel: the only loop inside it is
`skip_count`, whose `nodes.length + 1` fuel always suffices. -/
theorem extension_body_ne_fuelOut (text : List Char) (i j : Int)
    (s : UkkState) (hinv : heapInv s) :
    extension_body text i j s ≠ .error .fuelOut := by
  unfold extension_body
  have hinv0 : heapInv
      (if s.active_node = 0 then { s with active_length := i - j } else s) := by
    split
    · exact ⟨hinv.1, hinv.2.1, hinv.2.2.1, hinv.2.2.2.1, hinv.2.2.2.2⟩
    · exact hinv
  obtain ⟨rank, hrank⟩ := hinv0.2.2.2.1
  refine mbind_ne_fuelOut ?_ ?_
  · refine skip_count_ne_fuelOut _ _ _ _ _ _ rank hrank hinv0.2.1 ?_
    have hle := Finset.card_filter_le
      (Finset.range
        (if s.active_node = 0 then { s with active_length := i - j }
          else s).nodes.length)
      (fun x => rank x < rank
        (if s.active_node = 0 then { s with active_length := i - j }
          else s).active_node)
    rw [Finset.card_range] at hle
    omega
  · intro sr _
    refine mbind_ne_fuelOut (pyGet_ne_fuelOut _ _) ?_
    intro ch _
    refine mbind_ne_fuelOut (getNode_ne_fuelOut _ _) ?_
    intro an _
    refine mbind_ne_fuelOut (pyGet_ne_fuelOut _ _) ?_
    intro aeo _
    cases aeo with
    | none =>
      refine mbind_ne_fuelOut (getNode_ne_fuelOut _ _) ?_
      intro an2 _
      refine mbind_ne_fuelOut (pySet_ne_fuelOut _ _ _) ?_
      intro children _
      refine mbind_ne_fuelOut (setNode_ne_fuelOut _ _ _) ?_
      intro s3 _
      exact advance_ne_fuelOut _ _
    | some edgeId =>
      refine mbind_ne_fuelOut (getNode_ne_fuelOut _ _) ?_
      intro ae _
      refine mbind_ne_fuelOut (pyGet_ne_fuelOut _ _) ?_
      intro c1 _
      refine mbind_ne_fuelOut (pyGet_ne_fuelOut _ _) ?_
      intro c2 _
      split
      · refine mbind_ne_fuelOut (getNode_ne_fuelOut _ _) ?_
        intro an2 _
        refine mbind_ne_fuelOut (pySet_ne_fuelOut _ _ _) ?_
        intro children _
        refine mbind_ne_fuelOut (setNode_ne_fuelOut _ _ _) ?_
        intro s3 _
        refine mbind_ne_fuelOut (pyGet_ne_fuelOut _ _) ?_
        intro cc _
        refine mbind_ne_fuelOut (setNode_ne_fuelOut _ _ _) ?_
        intro s4 _
        refine mbind_ne_fuelOut (getNode_ne_fuelOut _ _) ?_
        intro ex _
        refine mbind_ne_fuelOut (pySet_ne_fuelOut _ _ _) ?_
        intro exChildren _
        refine mbind_ne_fuelOut (setNode_ne_fuelOut _ _ _) ?_
        intro s5 _
        refine mbind_ne_fuelOut (pyGet_ne_fuelOut _ _) ?_
        intro nc _
        refine mbind_ne_fuelOut (getNode_ne_fuelOut _ _) ?_
        intro ex2 _
        refine mbind_ne_fuelOut (pySet_ne_fuelOut _ _ _) ?_
        intro exChildren2 _
        refine mbind_ne_fuelOut (setNode_ne_fuelOut _ _ _) ?_
        intro s6 _
        exact advance_ne_fuelOut _ _
      · exact fun hcon => Except.noConfusion hcon

/-- The inner `while j < i` loop terminates: `(i - j) + 1` fuel suffices,
since every continuing iteration increments `j`. -/
theorem inner_loop_ne_fuelOut :
    ∀ (fuel : Nat) (text : List Char) (i j : Int) (s : UkkState),
      stateOk s → heapInv s → (i - j).toNat < fuel →
      inner_loop text i fuel j s ≠ .error .fuelOut := by
  intro fuel
  induction fuel with
  | zero =>
    intro text i j s hso hinv hfuel
    exact absurd hfuel (by omega)
  | succ fuel ih =>
    intro text i j s hso hinv hfuel
    rw [inner_loop]
    by_cases hji : j < i
    · rw [if_pos hji]
      refine mbind_ne_fuelOut (extension_body_ne_fuelOut _ _ _ _ hinv) ?_
      intro ⟨s1, j1, cont1⟩ hext
      dsimp only
      obtain ⟨hso1, _, _⟩ := extension_body_stateOk hso hext
      obtain ⟨hinv1, hjt, hjf⟩ := extension_body_heapInv hso hinv hext
      cases cont1 with
      | true =>
        rw [if_pos rfl]
        obtain rfl := hjt rfl
        exact ih text i (j + 1) s1 hso1 hinv1 (by omega)
      | false =>
        rw [if_neg (by simp)]
        exact fun hcon => Except.noConfusion hcon
    · rw [if_neg hji]
      exact fun hcon => Except.noConfusion hcon

/-- The outer `while i <= n` loop terminates: `n + 2` fuel suffices. -/
theorem phase_loop_ne_fuelOut :
    ∀ (fuel : Nat) (text : List Char) (n i j : Int) (s : UkkState),
      stateOk s → heapInv s → (n + 1 - i).toNat < fuel →
      phase_loop text n fuel i j s ≠ .error .fuelOut := by
  intro fuel
  induction fuel with
  | zero =>
    intro text n i j s hso hinv hfuel
    exact absurd hfuel (by omega)
  | succ fuel ih =>
    intro text n i j s hso hinv hfuel
    rw [phase_loop]
    by_cases hin : i ≤ n
    · rw [if_pos hin]
      have hsoE : stateOk { s with end_pointer := s.end_pointer + 1 } :=
        fun x hx => hso x hx
      have hinvE : heapInv { s with end_pointer := s.end_pointer + 1 } :=
        ⟨hinv.1, hinv.2.1, hinv.2.2.1, hinv.2.2.2.1, hinv.2.2.2.2⟩
      refine mbind_ne_fuelOut
        (inner_loop_ne_fuelOut _ _ _ _ _ hsoE hinvE (by omega)) ?_
      intro ⟨s1, j1⟩ hinner
      dsimp only
      obtain ⟨hso1, _⟩ := inner_loop_stateOk _ _ _ _ _ _ _ hsoE hinner
      have hinv1 := inner_loop_heapInv _ _ _ _ _ _ _ hsoE hinvE hinner
      exact ih text n (i + 1) j1
        { s1 with active_length := s1.active_length + 1 }
        (fun x hx => hso1 x hx)
        ⟨hinv1.1, hinv1.2.1, hinv1.2.2.1, hinv1.2.2.2.1, hinv1.2.2.2.2⟩
        (by omega)
    · rw [if_neg hin]
      exact fun hcon => Except.noConfusion hcon

/-- C8: construction always terminates — with the polynomial fuel bounds of
the embedding (`n + 2` phases, `i - j + 1` inner iterations per phase,
`nodes + 1` skip/count descents), no run of `run_algorithm`, on any input
whatsoever, ever reports fuel exhaustion: the outer phase loop, the inner
extension loop, and the unbounded `while True` of `skip_count` each
terminate on every reachable call. -/
theorem C8_termination (text0 : List Char) (ep0 : Int) :
    run_algorithm text0 (ukkonen_init ep0) ≠ .error .fuelOut ∧
    ukkonenTree text0 ep0 ≠ .error .fuelOut := by
  have hrun : run_algorithm text0 (ukkonen_init ep0) ≠ .error .fuelOut := by
    unfold run_algorithm
    refine phase_loop_ne_fuelOut _ _ _ _ _ _ (ukkonen_init_stateOk ep0)
      (ukkonen_init_heapInv ep0) ?_
    simp only [List.length_append, List.length_singleton]
    omega
  refine ⟨hrun, ?_⟩
  unfold ukkonenTree
  refine mbind_ne_fuelOut hrun ?_
  intro r _
  exact fun hcon => Except.noConfusion hcon

/-! ### C4: the construction is insensitive to the shared cell's start value -/

/-- Writing a node commutes with bumping the end pointer. -/
theorem setNode_bump (Δ : Int) (s : UkkState) (idx : Nat) (nd : Node) :
    setNode (bumpSt Δ s) idx nd =
      Except.map (bumpSt Δ) (setNode s idx nd) := by
  unfold setNode
  by_cases hc : idx < s.nodes.length
  · rw [if_pos hc, if_pos (show idx < (bumpSt Δ s).nodes.length from hc)]
    rfl
  · rw [if_neg hc, if_neg (show ¬idx < (bumpSt Δ s).nodes.length from hc)]
    rfl

/-- The suffix-link move commutes with bumping the end pointer. -/
theorem advance_bump (Δ : Int) (s : UkkState) (j : Int) :
    advance (bumpSt Δ s) j =
      Except.map (fun t => (bumpSt Δ t.1, t.2)) (advance s j) := by
  unfold advance
  have hg : getNode (bumpSt Δ s) (bumpSt Δ s).active_node =
      getNode s s.active_node := rfl
  rw [hg]
  cases hget : getNode s s.active_node with
  | error e => rfl
  | ok an =>
    rw [mbind_ok, mbind_ok]
    cases an.suffix_link with
    | some l => rfl
    | none => rfl

/-- Relational form of `skip_count` under an end-pointer bump `Δ ≥ 0`: if
both the original run and the bumped run succeed, they leave related
states.  (The two runs may branch differently at an open leaf edge — the
bumped run sees a longer edge and stops a step earlier — but under the
deep invariant the node behind such an edge is a leaf, so the original run
stops right there too.) -/
theorem skip_count_epRel (Δ : Int) (hΔ : 0 ≤ Δ) :
    ∀ (fuel : Nat) (text : List Char) (cp : Int) (a : Nat) (al : Int)
      (s : UkkState) (p₁ p₂ : UkkState × Nat),
      heapInv s → a < s.nodes.length →
      skip_count text cp fuel a al s = .ok p₁ →
      skip_count text cp fuel a al (bumpSt Δ s) = .ok p₂ →
      p₂.1 = bumpSt Δ p₁.1 := by
  intro fuel
  induction fuel with
  | zero =>
    intro text cp a al s p₁ p₂ hinv ha h₁ h₂
    exact Except.noConfusion h₁
  | succ fuel ih =>
    intro text cp a al s p₁ p₂ hinv ha h₁ h₂
    rw [skip_count] at h₁ h₂
    obtain ⟨nd, hnd, h₁⟩ := mbind_eq_ok h₁
    obtain ⟨nd₂, hnd₂, h₂⟩ := mbind_eq_ok h₂
    have hnd₂' : getNode s a = .ok nd₂ := hnd₂
    rw [hnd] at hnd₂'
    obtain rfl : nd = nd₂ := Except.ok.inj hnd₂'
    by_cases h0 : (decide (al = 0) || nd.is_leaf) = true
    · rw [if_pos h0] at h₁ h₂
      cases h₁
      cases h₂
      rfl
    · rw [if_neg h0] at h₁ h₂
      obtain ⟨c, hc, h₁⟩ := mbind_eq_ok h₁
      obtain ⟨c₂, hc₂, h₂⟩ := mbind_eq_ok h₂
      rw [hc] at hc₂
      obtain rfl : c = c₂ := Except.ok.inj hc₂
      obtain ⟨edge, hedge, h₁⟩ := mbind_eq_ok h₁
      obtain ⟨edge₂, hedge₂, h₂⟩ := mbind_eq_ok h₂
      rw [hedge] at hedge₂
      obtain rfl : edge = edge₂ := Except.ok.inj hedge₂
      cases edge with
      | none =>
        cases h₁
        cases h₂
        rfl
      | some edgeId =>
        obtain ⟨e, he, h₁⟩ := mbind_eq_ok h₁
        obtain ⟨e₂, he₂, h₂⟩ := mbind_eq_ok h₂
        have he₂' : getNode { s with active_node := a, active_length := al }
            edgeId = .ok e₂ := he₂
        rw [he] at he₂'
        obtain rfl : e = e₂ := Except.ok.inj he₂'
        have heget : s.nodes.get? edgeId = some e := getNode_get? he
        have hedgeB : edgeId ≠ 0 ∧ edgeId < s.nodes.length :=
          hinv.2.1 nd (getNode_mem hnd) edgeId (pyGet_mem hedge)
        cases hend : e.end_ with
        | fixedEnd v =>
          have hlen1 : e.get_length
              ({ s with active_node := a, active_length := al } :
                UkkState).end_pointer = v - e.start := by
            simp [Node.get_length, Node.get_end, hend]
          have hlen2 : e.get_length
              ({ bumpSt Δ s with active_node := a, active_length := al } :
                UkkState).end_pointer = v - e.start := by
            simp [Node.get_length, Node.get_end, hend]
          rw [hlen1] at h₁
          rw [hlen2] at h₂
          by_cases hgt : v - e.start > al
          · rw [if_pos hgt] at h₁ h₂
            cases h₁
            cases h₂
            rfl
          · rw [if_neg hgt] at h₁ h₂
            have h₂' : skip_count text cp fuel edgeId (al - (v - e.start))
                (bumpSt Δ { s with active_node := a, active_length := al }) =
                .ok p₂ := h₂
            exact ih text cp edgeId (al - (v - e.start))
              { s with active_node := a, active_length := al } p₁ p₂
              ⟨hinv.1, hinv.2.1, hinv.2.2.1, hinv.2.2.2.1, ha⟩
              hedgeB.2 h₁ h₂'
        | globalEnd =>
          have hlen1 : e.get_length
              ({ s with active_node := a, active_length := al } :
                UkkState).end_pointer = s.end_pointer - e.start := by
            simp [Node.get_length, Node.get_end, hend]
          have hlen2 : e.get_length
              ({ bumpSt Δ s with active_node := a, active_length := al } :
                UkkState).end_pointer = s.end_pointer + Δ - e.start := by
            simp [Node.get_length, Node.get_end, hend, bumpSt]
          rw [hlen1] at h₁
          rw [hlen2] at h₂
          have hleaf : e.leaf_node = true :=
            hinv.2.2.1 edgeId e heget hedgeB.1 hend
          by_cases hgt1 : s.end_pointer - e.start > al
          · have hgt2 : s.end_pointer + Δ - e.start > al := by omega
            rw [if_pos hgt1] at h₁
            rw [if_pos hgt2] at h₂
            cases h₁
            cases h₂
            rfl
          · rw [if_neg hgt1] at h₁
            have hp₁ : p₁ =
                ({ s with active_node := a, active_length := al }, edgeId) := by
              cases fuel with
              | zero => exact Except.noConfusion h₁
              | succ fuel' =>
                rw [skip_count] at h₁
                obtain ⟨e', he', h₁⟩ := mbind_eq_ok h₁
                have he'' : getNode
                    { s with active_node := a, active_length := al } edgeId =
                    .ok e' := he'
                rw [he] at he''
                obtain rfl : e = e' := Except.ok.inj he''
                rw [if_pos (by simp [Node.is_leaf, hleaf])] at h₁
                exact (Except.ok.inj h₁).symm
            by_cases hgt2 : s.end_pointer + Δ - e.start > al
            · rw [if_pos hgt2] at h₂
              cases h₂
              rw [hp₁]
              rfl
            · rw [if_neg hgt2] at h₂
              have hp₂ : p₂ =
                  ({ bumpSt Δ s with active_node := a, active_length := al },
                    edgeId) := by
                cases fuel with
                | zero => exact Except.noConfusion h₂
                | succ fuel' =>
                  rw [skip_count] at h₂
                  obtain ⟨e', he', h₂⟩ := mbind_eq_ok h₂
                  have he'' : getNode
                      { s with active_node := a, active_length := al } edgeId =
                      .ok e' := he'
                  rw [he] at he''
                  obtain rfl : e = e' := Except.ok.inj he''
                  rw [if_pos (by simp [Node.is_leaf, hleaf])] at h₂
                  exact (Except.ok.inj h₂).symm
              rw [hp₁, hp₂]
              rfl

/-- Relational form of one inner-loop body step under an end-pointer bump:
if both runs succeed they produce related states and identical `j` /
continue flags.  Nothing in the body other than the `skip_count` leaf-edge
length test ever reads the shared end pointer. -/
theorem extension_body_epRel (Δ : Int) (hΔ : 0 ≤ Δ) {text : List Char}
    {i j : Int} {s : UkkState} {p₁ p₂ : UkkState × Int × Bool}
    (hinv : heapInv s)
    (h₁ : extension_body text i j s = .ok p₁)
    (h₂ : extension_body text i j (bumpSt Δ s) = .ok p₂) :
    p₂ = (bumpSt Δ p₁.1, p₁.2) := by
  unfold extension_body at h₁ h₂
  have hif : (if (bumpSt Δ s).active_node = 0 then
      { bumpSt Δ s with active_length := i - j } else bumpSt Δ s) =
      bumpSt Δ (if s.active_node = 0 then { s with active_length := i - j }
        else s) := by
    by_cases hroot : s.active_node = 0
    · rw [if_pos hroot, if_pos (show (bumpSt Δ s).active_node = 0 from hroot)]
      rfl
    · rw [if_neg hroot,
        if_neg (show ¬(bumpSt Δ s).active_node = 0 from hroot)]
  rw [hif] at h₂
  have hinv0 : heapInv (if s.active_node = 0 then
      { s with active_length := i - j } else s) := by
    split
    · exact ⟨hinv.1, hinv.2.1, hinv.2.2.1, hinv.2.2.2.1, hinv.2.2.2.2⟩
    · exact hinv
  generalize hgen : (if s.active_node = 0 then
      { s with active_length := i - j } else s) = s0 at h₁ h₂ hinv0
  obtain ⟨⟨s1, r1⟩, hskip₁, h₁⟩ := mbind_eq_ok h₁
  dsimp only at h₁
  obtain ⟨⟨s2, r2⟩, hskip₂, h₂⟩ := mbind_eq_ok h₂
  dsimp only at h₂
  have hskip₂' : skip_count text i (s0.nodes.length + 1) s0.active_node
      s0.active_length (bumpSt Δ s0) = .ok (s2, r2) := hskip₂
  obtain rfl : s2 = bumpSt Δ s1 :=
    skip_count_epRel Δ hΔ (s0.nodes.length + 1) text i s0.active_node
      s0.active_length s0 (s1, r1) (s2, r2) hinv0 hinv0.2.2.2.2 hskip₁ hskip₂'
  obtain ⟨ch, hch, h₁⟩ := mbind_eq_ok h₁
  obtain ⟨ch₂, hch₂, h₂⟩ := mbind_eq_ok h₂
  have hch₂' : pyGet text (i - s1.active_length) = .ok ch₂ := hch₂
  rw [hch] at hch₂'
  obtain rfl : ch = ch₂ := Except.ok.inj hch₂'
  obtain ⟨an, han, h₁⟩ := mbind_eq_ok h₁
  obtain ⟨an₂, han₂, h₂⟩ := mbind_eq_ok h₂
  have han₂' : getNode s1 s1.active_node = .ok an₂ := han₂
  rw [han] at han₂'
  obtain rfl : an = an₂ := Except.ok.inj han₂'
  obtain ⟨aeo, hedge, h₁⟩ := mbind_eq_ok h₁
  obtain ⟨aeo₂, hedge₂, h₂⟩ := mbind_eq_ok h₂
  rw [hedge] at hedge₂
  obtain rfl : aeo = aeo₂ := Except.ok.inj hedge₂
  cases aeo with
  | none =>
    obtain ⟨an2, han2, h₁⟩ := mbind_eq_ok h₁
    obtain ⟨an2b, han2b, h₂⟩ := mbind_eq_ok h₂
    have han2b' : getNode (allocNode s1
        { Node.mkNode (i - s1.active_length) .globalEnd (some 0) true with
          j := some j }).1
        (allocNode s1
        { Node.mkNode (i - s1.active_length) .globalEnd (some 0) true with
          j := some j }).1.active_node = .ok an2b := han2b
    rw [han2] at han2b'
    obtain rfl : an2 = an2b := Except.ok.inj han2b'
    obtain ⟨children, hch2, h₁⟩ := mbind_eq_ok h₁
    obtain ⟨children₂, hch2b, h₂⟩ := mbind_eq_ok h₂
    have hch2b' : pySet an2.child_nodes ((ch.toNat : Int) - 36)
        (some (allocNode s1
          { Node.mkNode (i - s1.active_length) .globalEnd (some 0) true with
            j := some j }).2) = .ok children₂ := hch2b
    rw [hch2] at hch2b'
    obtain rfl : children = children₂ := Except.ok.inj hch2b'
    obtain ⟨s3, hset₁, h₁⟩ := mbind_eq_ok h₁
    obtain ⟨s3b, hset₂, h₂⟩ := mbind_eq_ok h₂
    have hset₂' : setNode (bumpSt Δ (allocNode s1
        { Node.mkNode (i - s1.active_length) .globalEnd (some 0) true with
          j := some j }).1)
        (allocNode s1
        { Node.mkNode (i - s1.active_length) .globalEnd (some 0) true with
          j := some j }).1.active_node
        ({ an2 with child_nodes := children }) = .ok s3b := hset₂
    rw [setNode_bump, hset₁] at hset₂'
    obtain rfl : s3b = bumpSt Δ s3 := (Except.ok.inj hset₂').symm
    have h₂' : advance (bumpSt Δ s3) j = .ok p₂ := h₂
    rw [advance_bump, h₁] at h₂'
    exact (Except.ok.inj h₂').symm
  | some edgeId =>
    obtain ⟨ae, hae, h₁⟩ := mbind_eq_ok h₁
    obtain ⟨ae₂, hae₂, h₂⟩ := mbind_eq_ok h₂
    have hae₂' : getNode s1 edgeId = .ok ae₂ := hae₂
    rw [hae] at hae₂'
    obtain rfl : ae = ae₂ := Except.ok.inj hae₂'
    obtain ⟨c1, hc1, h₁⟩ := mbind_eq_ok h₁
    obtain ⟨c1b, hc1b, h₂⟩ := mbind_eq_ok h₂
    have hc1b' : pyGet text (i - 1) = .ok c1b := hc1b
    rw [hc1] at hc1b'
    obtain rfl : c1 = c1b := Except.ok.inj hc1b'
    obtain ⟨c2, hc2, h₁⟩ := mbind_eq_ok h₁
    obtain ⟨c2b, hc2b, h₂⟩ := mbind_eq_ok h₂
    have hc2b' : pyGet text (ae.start + s1.active_length - 1) = .ok c2b := hc2b
    rw [hc2] at hc2b'
    obtain rfl : c2 = c2b := Except.ok.inj hc2b'
    by_cases hne : c1 ≠ c2
    · rw [if_pos hne] at h₁ h₂
      obtain ⟨an2, han2, h₁⟩ := mbind_eq_ok h₁
      obtain ⟨an2b, han2b, h₂⟩ := mbind_eq_ok h₂
      have han2b' : getNode (allocNode s1
          (Node.mkNode ae.start
            (.fixedEnd (ae.start + s1.active_length - 1)) (some 0) false)).1
          (allocNode s1
          (Node.mkNode ae.start
            (.fixedEnd (ae.start + s1.active_length - 1)) (some 0) false)
          ).1.active_node = .ok an2b := han2b
      rw [han2] at han2b'
      obtain rfl : an2 = an2b := Except.ok.inj han2b'
      obtain ⟨children, hch2, h₁⟩ := mbind_eq_ok h₁
      obtain ⟨children₂, hch2b, h₂⟩ := mbind_eq_ok h₂
      have hch2b' : pySet an2.child_nodes ((ch.toNat : Int) - 36)
          (some (allocNode s1
            (Node.mkNode ae.start
              (.fixedEnd (ae.start + s1.active_length - 1)) (some 0) false)
            ).2) = .ok children₂ := hch2b
      rw [hch2] at hch2b'
      obtain rfl : children = children₂ := Except.ok.inj hch2b'
      obtain ⟨s3, hset3₁, h₁⟩ := mbind_eq_ok h₁
      obtain ⟨s3b, hset3₂, h₂⟩ := mbind_eq_ok h₂
      have hset3₂' : setNode (bumpSt Δ (allocNode s1
          (Node.mkNode ae.start
            (.fixedEnd (ae.start + s1.active_length - 1)) (some 0) false)).1)
          (allocNode s1
          (Node.mkNode ae.start
            (.fixedEnd (ae.start + s1.active_length - 1)) (some 0) false)
          ).1.active_node ({ an2 with child_nodes := children }) =
          .ok s3b := hset3₂
      rw [setNode_bump, hset3₁] at hset3₂'
      obtain rfl : s3b = bumpSt Δ s3 := (Except.ok.inj hset3₂').symm
      obtain ⟨cc, hcc, h₁⟩ := mbind_eq_ok h₁
      obtain ⟨ccb, hccb, h₂⟩ := mbind_eq_ok h₂
      have hccb' : pyGet text (ae.start - 1 + s3.active_length) = .ok ccb :=
        hccb
      rw [hcc] at hccb'
      obtain rfl : cc = ccb := Except.ok.inj hccb'
      obtain ⟨s4, hset4₁, h₁⟩ := mbind_eq_ok h₁
      obtain ⟨s4b, hset4₂, h₂⟩ := mbind_eq_ok h₂
      have hset4₂' : setNode (bumpSt Δ s3) edgeId
          ({ ae with start := ae.start + s3.active_length - 1 }) =
          .ok s4b := hset4₂
      rw [setNode_bump, hset4₁] at hset4₂'
      obtain rfl : s4b = bumpSt Δ s4 := (Except.ok.inj hset4₂').symm
      obtain ⟨ex, hex, h₁⟩ := mbind_eq_ok h₁
      obtain ⟨exb, hexb, h₂⟩ := mbind_eq_ok h₂
      have hexb' : getNode s4 (allocNode s1
          (Node.mkNode ae.start
            (.fixedEnd (ae.start + s1.active_length - 1)) (some 0) false)
          ).2 = .ok exb := hexb
      rw [hex] at hexb'
      obtain rfl : ex = exb := Except.ok.inj hexb'
      obtain ⟨exChildren, hexch, h₁⟩ := mbind_eq_ok h₁
      obtain ⟨exChildren₂, hexchb, h₂⟩ := mbind_eq_ok h₂
      have hexchb' : pySet ex.child_nodes
          (((cc.toNat : Int)) - 36) (some edgeId) = .ok exChildren₂ := hexchb
      rw [hexch] at hexchb'
      obtain rfl : exChildren = exChildren₂ := Except.ok.inj hexchb'
      obtain ⟨s5, hset5₁, h₁⟩ := mbind_eq_ok h₁
      obtain ⟨s5b, hset5₂, h₂⟩ := mbind_eq_ok h₂
      have hset5₂' : setNode (bumpSt Δ s4) (allocNode s1
          (Node.mkNode ae.start
            (.fixedEnd (ae.start + s1.active_length - 1)) (some 0) false)).2
          ({ ex with child_nodes := exChildren }) = .ok s5b := hset5₂
      rw [setNode_bump, hset5₁] at hset5₂'
      obtain rfl : s5b = bumpSt Δ s5 := (Except.ok.inj hset5₂').symm
      obtain ⟨nc, hnc, h₁⟩ := mbind_eq_ok h₁
      obtain ⟨ncb, hncb, h₂⟩ := mbind_eq_ok h₂
      have hncb' : pyGet text (i - 1) = .ok ncb := hncb
      rw [hnc] at hncb'
      obtain rfl : nc = ncb := Except.ok.inj hncb'
      obtain ⟨ex2, hex2, h₁⟩ := mbind_eq_ok h₁
      obtain ⟨ex2b, hex2b, h₂⟩ := mbind_eq_ok h₂
      have hex2b' : getNode (allocNode s5
          ({ Node.mkNode (i - 1) .globalEnd (some 0) true with
             j := some j })).1
          (allocNode s1
          (Node.mkNode ae.start
            (.fixedEnd (ae.start + s1.active_length - 1)) (some 0) false)
          ).2 = .ok ex2b := hex2b
      rw [hex2] at hex2b'
      obtain rfl : ex2 = ex2b := Except.ok.inj hex2b'
      obtain ⟨exChildren2, hexch2, h₁⟩ := mbind_eq_ok h₁
      obtain ⟨exChildren2b, hexch2b, h₂⟩ := mbind_eq_ok h₂
      have hexch2b' : pySet ex2.child_nodes (((nc.toNat : Int)) - 36)
          (some (allocNode s5
            ({ Node.mkNode (i - 1) .globalEnd (some 0) true with
               j := some j })).2) = .ok exChildren2b := hexch2b
      rw [hexch2] at hexch2b'
      obtain rfl : exChildren2 = exChildren2b := Except.ok.inj hexch2b'
      obtain ⟨s6, hset6₁, h₁⟩ := mbind_eq_ok h₁
      obtain ⟨s6b, hset6₂, h₂⟩ := mbind_eq_ok h₂
      have hset6₂' : setNode (bumpSt Δ (allocNode s5
          ({ Node.mkNode (i - 1) .globalEnd (some 0) true with
             j := some j })).1)
          (allocNode s1
          (Node.mkNode ae.start
            (.fixedEnd (ae.start + s1.active_length - 1)) (some 0) false)).2
          ({ ex2 with child_nodes := exChildren2 }) = .ok s6b := hset6₂
      rw [setNode_bump, hset6₁] at hset6₂'
      obtain rfl : s6b = bumpSt Δ s6 := (Except.ok.inj hset6₂').symm
      have h₂' : advance (bumpSt Δ s6) j = .ok p₂ := h₂
      rw [advance_bump, h₁] at h₂'
      exact (Except.ok.inj h₂').symm
    · rw [if_neg hne] at h₁ h₂
      obtain rfl : (s1, j, false) = p₁ := Except.ok.inj h₁
      obtain rfl : (bumpSt Δ s1, j, false) = p₂ := Except.ok.inj h₂
      rfl

/-- Relational form of the inner loop under an end-pointer bump. -/
theorem inner_loop_epRel (Δ : Int) (hΔ : 0 ≤ Δ) :
    ∀ (fuel : Nat) (text : List Char) (i j : Int) (s : UkkState)
      (p₁ p₂ : UkkState × Int),
      stateOk s → heapInv s →
      inner_loop text i fuel j s = .ok p₁ →
      inner_loop text i fuel j (bumpSt Δ s) = .ok p₂ →
      p₂ = (bumpSt Δ p₁.1, p₁.2) := by
  intro fuel
  induction fuel with
  | zero =>
    intro text i j s p₁ p₂ hso hinv h₁ h₂
    exact Except.noConfusion h₁
  | succ fuel ih =>
    intro text i j s p₁ p₂ hso hinv h₁ h₂
    rw [inner_loop] at h₁ h₂
    by_cases hji : j < i
    · rw [if_pos hji] at h₁ h₂
      obtain ⟨⟨s1, j1, c1⟩, hext₁, h₁⟩ := mbind_eq_ok h₁
      dsimp only at h₁
      obtain ⟨r₂, hext₂, h₂⟩ := mbind_eq_ok h₂
      obtain rfl : r₂ = (bumpSt Δ s1, j1, c1) :=
        extension_body_epRel Δ hΔ hinv hext₁ hext₂
      dsimp only at h₂
      obtain ⟨hso1, _, _⟩ := extension_body_stateOk hso hext₁
      obtain ⟨hinv1, _, _⟩ := extension_body_heapInv hso hinv hext₁
      cases c1 with
      | true =>
        rw [if_pos rfl] at h₁ h₂
        exact ih text i j1 s1 p₁ p₂ hso1 hinv1 h₁ h₂
      | false =>
        rw [if_neg (by simp)] at h₁ h₂
        obtain rfl : (s1, j1) = p₁ := Except.ok.inj h₁
        obtain rfl : (bumpSt Δ s1, j1) = p₂ := Except.ok.inj h₂
        rfl
    · rw [if_neg hji] at h₁ h₂
      obtain rfl : (s, j) = p₁ := Except.ok.inj h₁
      obtain rfl : (bumpSt Δ s, j) = p₂ := Except.ok.inj h₂
      rfl

/-- Relational form of the phase loop under an end-pointer bump. -/
theorem phase_loop_epRel (Δ : Int) (hΔ : 0 ≤ Δ) :
    ∀ (fuel : Nat) (text : List Char) (n i j : Int) (s : UkkState)
      (p₁ p₂ : UkkState × Int),
      stateOk s → heapInv s →
      phase_loop text n fuel i j s = .ok p₁ →
      phase_loop text n fuel i j (bumpSt Δ s) = .ok p₂ →
      p₂ = (bumpSt Δ p₁.1, p₁.2) := by
  intro fuel
  induction fuel with
  | zero =>
    intro text n i j s p₁ p₂ hso hinv h₁ h₂
    exact Except.noConfusion h₁
  | succ fuel ih =>
    intro text n i j s p₁ p₂ hso hinv h₁ h₂
    rw [phase_loop] at h₁ h₂
    by_cases hin : i ≤ n
    · rw [if_pos hin] at h₁ h₂
      obtain ⟨⟨s1, j1⟩, hin₁, h₁⟩ := mbind_eq_ok h₁
      dsimp only at h₁
      obtain ⟨r₂, hin₂, h₂⟩ := mbind_eq_ok h₂
      have hsoE : stateOk { s with end_pointer := s.end_pointer + 1 } :=
        fun x hx => hso x hx
      have hinvE : heapInv { s with end_pointer := s.end_pointer + 1 } :=
        ⟨hinv.1, hinv.2.1, hinv.2.2.1, hinv.2.2.2.1, hinv.2.2.2.2⟩
      have hin₂' : inner_loop text i ((i - j).toNat + 1) j
          (bumpSt Δ { s with end_pointer := s.end_pointer + 1 }) = .ok r₂ := by
        have heq : (bumpSt Δ { s with end_pointer := s.end_pointer + 1 } :
            UkkState) =
            { bumpSt Δ s with
              end_pointer := (bumpSt Δ s).end_pointer + 1 } := by
          show ({ s with end_pointer := s.end_pointer + 1 + Δ } : UkkState) = _
          show _ = ({ s with end_pointer := s.end_pointer + Δ + 1 } : UkkState)
          congr 1
          omega
        rw [heq]
        exact hin₂
      obtain rfl : r₂ = (bumpSt Δ s1, j1) :=
        inner_loop_epRel Δ hΔ _ text i j _ (s1, j1) r₂ hsoE hinvE hin₁ hin₂'
      dsimp only at h₂
      obtain ⟨hso1, _⟩ := inner_loop_stateOk _ _ _ _ _ _ _ hsoE hin₁
      have hinv1 := inner_loop_heapInv _ _ _ _ _ _ _ hsoE hinvE hin₁
      have h₂' : phase_loop text n fuel (i + 1) j1
          (bumpSt Δ { s1 with active_length := s1.active_length + 1 }) =
          .ok p₂ := h₂
      exact ih text n (i + 1) j1
        { s1 with active_length := s1.active_length + 1 } p₁ p₂
        (fun x hx => hso1 x hx)
        ⟨hinv1.1, hinv1.2.1, hinv1.2.2.1, hinv1.2.2.2.1, hinv1.2.2.2.2⟩
        h₁ h₂'
    · rw [if_neg hin] at h₁ h₂
      obtain rfl : (s, j) = p₁ := Except.ok.inj h₁
      obtain rfl : (bumpSt Δ s, j) = p₂ := Except.ok.inj h₂
      rfl

/-- Whole-construction relational lemma: runs from two shared-cell start
values `ep0 ≤ ep0'` that both succeed build identical trees (same heap),
differing only in the final cell value. -/
theorem ukkonenTree_epRel {text0 : List Char} {ep0 ep0' : Int}
    (hle : ep0 ≤ ep0') {s₁ s₂ : UkkState}
    (h₁ : ukkonenTree text0 ep0 = .ok s₁)
    (h₂ : ukkonenTree text0 ep0' = .ok s₂) :
    s₂ = bumpSt (ep0' - ep0) s₁ := by
  unfold ukkonenTree run_algorithm at h₁ h₂
  obtain ⟨⟨sf, jf⟩, hrun₁, h₁⟩ := mbind_eq_ok h₁
  cases h₁
  obtain ⟨p₂, hrun₂, h₂⟩ := mbind_eq_ok h₂
  have hinit : ukkonen_init ep0' = bumpSt (ep0' - ep0) (ukkonen_init ep0) := by
    unfold ukkonen_init bumpSt
    congr 1
    show ep0' = ep0 + (ep0' - ep0)
    omega
  rw [hinit] at hrun₂
  obtain rfl : p₂ = (bumpSt (ep0' - ep0) sf, jf) :=
    phase_loop_epRel (ep0' - ep0) (by omega) _ _ _ _ _ _ (sf, jf) p₂
      (ukkonen_init_stateOk ep0) (ukkonen_init_heapInv ep0) hrun₁ hrun₂
  cases h₂
  rfl

/-- A `foldlM` over related accumulators with a step that commutes with
the relation commutes with it overall. -/
theorem foldlM_map_rel {β : Type}
    (g₁ g₂ : (UkkState × List Int) → β → M (UkkState × List Int))
    (φ : (UkkState × List Int) → (UkkState × List Int))
    (hg : ∀ p c, g₂ (φ p) c = Except.map φ (g₁ p c)) :
    ∀ (l : List β) (p : UkkState × List Int),
      List.foldlM g₂ (φ p) l = Except.map φ (List.foldlM g₁ p l) := by
  intro l
  induction l with
  | nil => intro p; rfl
  | cons c rest ih =>
    intro p
    rw [List.foldlM_cons, List.foldlM_cons, hg]
    cases hstep : g₁ p c with
    | error e => rfl
    | ok q =>
      rw [mbind_ok]
      show List.foldlM g₂ (φ q) rest = _
      rw [ih q]

/-- The traversal never reads the shared end pointer: it commutes with a
bump. -/
theorem get_suffix_tree_aux_bump (Δ : Int) :
    ∀ (fuel : Nat) (s : UkkState) (nodeId : Nat) (acc : List Int),
      get_suffix_tree_aux fuel (bumpSt Δ s) nodeId acc =
        Except.map (fun p => (bumpSt Δ p.1, p.2))
          (get_suffix_tree_aux fuel s nodeId acc) := by
  intro fuel
  induction fuel with
  | zero => intro s nodeId acc; rfl
  | succ fuel ih =>
    intro s nodeId acc
    rw [get_suffix_tree_aux, get_suffix_tree_aux]
    have hg : getNode (bumpSt Δ s) nodeId = getNode s nodeId := rfl
    rw [hg]
    cases hget : getNode s nodeId with
    | error e => rfl
    | ok nd =>
      rw [mbind_ok, mbind_ok]
      by_cases hleaf : nd.is_leaf
      · rw [if_pos hleaf, if_pos hleaf]
        cases nd.j with
        | some jv => rfl
        | none => rfl
      · rw [if_neg hleaf, if_neg hleaf]
        have := foldlM_map_rel
          (fun p c =>
            match c with
            | none => pure p
            | some cid => get_suffix_tree_aux fuel p.1 cid p.2)
          (fun p c =>
            match c with
            | none => pure p
            | some cid => get_suffix_tree_aux fuel p.1 cid p.2)
          (fun p => (bumpSt Δ p.1, p.2))
          (fun p c => by
            match c with
            | none => rfl
            | some cid => exact ih p.1 cid p.2)
          nd.child_nodes (s, acc)
        exact this

/-- C4: determinism across shared-cell reuse.  If one construction runs
with a fresh shared `End` cell (start value `-1`) and another runs on the
same input with the cell at any value `ep0 ≥ -1` — in particular the value
a previous default construction left behind — then, whenever both complete,
`get_suffix_tree()` returns the same output for both. -/
theorem C4_determinism (text0 : List Char) (ep0 : Int)
    (out1 out2 : List Int) (hle : -1 ≤ ep0)
    (h1 : ukkonenOutput text0 (-1) = .ok out1)
    (h2 : ukkonenOutput text0 ep0 = .ok out2) :
    out2 = out1 := by
  unfold ukkonenOutput at h1 h2
  obtain ⟨s₁, htree₁, h1⟩ := mbind_eq_ok h1
  obtain ⟨r₁, hgst₁, h1⟩ := mbind_eq_ok h1
  cases h1
  obtain ⟨s₂, htree₂, h2⟩ := mbind_eq_ok h2
  obtain ⟨r₂, hgst₂, h2⟩ := mbind_eq_ok h2
  cases h2
  obtain rfl : s₂ = bumpSt (ep0 - -1) s₁ := ukkonenTree_epRel hle htree₁ htree₂
  have hbump : get_suffix_tree (bumpSt (ep0 - -1) s₁) =
      Except.map (fun p => (bumpSt (ep0 - -1) p.1, p.2))
        (get_suffix_tree s₁) := by
    unfold get_suffix_tree
    exact get_suffix_tree_aux_bump _ _ s₁ 0 []
  rw [hbump, hgst₁] at hgst₂
  obtain rfl : (bumpSt (ep0 - -1) r₁.1, r₁.2) = r₂ := Except.ok.inj hgst₂
  rfl

/-- C4 witness: for input `"a"`, the run from the fresh cell value `-1` and
the run from cell value `2` (what a previous default construction of `"a"`
leaves behind) both output `[2, 1]`. -/
theorem C4_witness :
    (-1 : Int) ≤ 2 ∧
    ukkonenOutput ['a'] (-1) = .ok [2, 1] ∧
    ukkonenOutput ['a'] 2 = .ok [2, 1] ∧
    ([2, 1] : List Int) = [2, 1] :=
  ⟨by norm_num, by decide, by decide,
    C4_determinism ['a'] 2 [2, 1] [2, 1] (by norm_num) (by decide) (by decide)⟩


/-! ### Bounded kernel-checked evidence for the full-correctness claims -/

set_option maxRecDepth 100000 in
/-- Bounded evidence for full functional correctness: on the classic input
`"banana"` the whole pipeline output equals the naive sorted-suffix order
of `"banana$"`, namely `[7, 6, 4, 2, 1, 5, 3]`. -/
theorem output_eq_naive_banana :
    ukkonenOutput ['b','a','n','a','n','a'] (-1) =
      .ok (naiveSuffixOrder ['b','a','n','a','n','a']) := by
  decide

set_option maxRecDepth 400000 in
/-- Bounded evidence for full functional correctness: on every word over
`{a, b}` of length at most 5 (63 inputs), the pipeline output equals the
naive sorted-suffix order. -/
theorem output_eq_naive_ab5 :
    ∀ w ∈ allWords ['a', 'b'] 5,
      ukkonenOutput w (-1) = .ok (naiveSuffixOrder w) := by
  decide

set_option maxRecDepth 400000 in
/-- Bounded evidence for the permutation property: on every word over
`{a, b}` of length at most 5, the pipeline output sorted ascending is
exactly `[1, ..., m + 1]` where `m` is the word length — so the output is
a permutation of `1..=m+1`. -/
theorem output_perm_ab5 :
    ∀ w ∈ allWords ['a', 'b'] 5,
      Except.map (fun out => sortLt (fun a b => decide (a < b)) out)
          (ukkonenOutput w (-1)) =
        .ok ((List.range (w.length + 1)).map (fun k => (k : Int) + 1)) := by
  decide

end UkkonenPy
